import Mathlib

/-!
Verification of the PEHint version-update utility (update_version.py).

The script is embedded shallowly:
* Python `int(...)` (base 10) is modelled by `pyInt` on ASCII text:
  optional surrounding whitespace, an optional sign, and a nonempty digit
  sequence that may use single underscores between digits.
* `str.split('.')` is `splitDot`; the triple unpacking in `main` is
  `pyParseVersion` (success exactly when the split has three segments and
  each passes `pyInt`).
* The fixed regular expressions `re.sub`/`re.search` are modelled by
  `Rule` values: a literal followed by alternating greedy digit runs
  (`\d+`) and literal separators.  For these patterns a greedy match is a
  maximal digit run, since every separator starts with a non-digit, so no
  backtracking can succeed where the maximal run fails.  `subAll` performs
  the left-to-right, non-overlapping, replace-all scan of `re.sub`.
* `update_version_header` (the pure text transformation) is
  `headerTransform`; `update_cmake_version` is `update_cmake_version`;
  the driver `main` acts on a two-file state `FS`.
-/

/-! ### Decimal digits and Python integer rendering -/

def digitVal (c : Char) : Nat := c.toNat - 48

def toDigitChar : Nat → Char
  | 0 => '0' | 1 => '1' | 2 => '2' | 3 => '3' | 4 => '4'
  | 5 => '5' | 6 => '6' | 7 => '7' | 8 => '8' | _ => '9'

def natDigitsF : Nat → Nat → List Char
  | 0, _ => []
  | f + 1, n =>
    if n < 10 then [toDigitChar n]
    else natDigitsF f (n / 10) ++ [toDigitChar (n % 10)]

/-- Decimal rendering of a natural number (`str(n)` for `n ≥ 0`); the
fuel `n + 1` always suffices. -/
def natDigits (n : Nat) : List Char := natDigitsF (n + 1) n

theorem natDigitsF_congr : ∀ (f g n : Nat), 0 < f → 0 < g → n < 10 ^ f → n < 10 ^ g →
    natDigitsF f n = natDigitsF g n := by
  intro f
  induction f with
  | zero => intro g n hf0 _ _ _; omega
  | succ f ih =>
    intro g n _ hg0 hf hg
    cases g with
    | zero => omega
    | succ g =>
      simp only [natDigitsF]
      by_cases h10 : n < 10
      · simp [h10]
      · simp only [h10, if_false]
        have hdf : n / 10 < 10 ^ f := by
          rw [pow_succ'] at hf
          exact Nat.div_lt_of_lt_mul hf
        have hdg : n / 10 < 10 ^ g := by
          rw [pow_succ'] at hg
          exact Nat.div_lt_of_lt_mul hg
        have hf0 : 0 < f := by
          by_contra hc
          have : f = 0 := by omega
          rw [this] at hdf
          simp at hdf
          omega
        have hg0 : 0 < g := by
          by_contra hc
          have : g = 0 := by omega
          rw [this] at hdg
          simp at hdg
          omega
        rw [ih g (n / 10) hf0 hg0 hdf hdg]

theorem lt_ten_pow_succ_self (n : Nat) : n < 10 ^ (n + 1) := by
  calc n < 10 ^ n := Nat.lt_pow_self (by omega) n
  _ ≤ 10 ^ (n + 1) := Nat.pow_le_pow_right (by omega) (by omega)

/-- The recursion equation of `natDigits`. -/
theorem natDigits_eq (n : Nat) :
    natDigits n = if n < 10 then [toDigitChar n]
      else natDigits (n / 10) ++ [toDigitChar (n % 10)] := by
  by_cases h10 : n < 10
  · simp [natDigits, natDigitsF, h10]
  · simp only [h10, if_false]
    show natDigitsF (n + 1) n = natDigitsF (n / 10 + 1) (n / 10) ++ [toDigitChar (n % 10)]
    have h1 : natDigitsF (n + 1) n = natDigitsF n (n / 10) ++ [toDigitChar (n % 10)] := by
      simp [natDigitsF, h10]
    rw [h1]
    congr 1
    exact natDigitsF_congr n (n / 10 + 1) (n / 10) (by omega) (by omega)
      (lt_trans (Nat.div_lt_self (by omega) (by omega)) (Nat.lt_pow_self (by omega) n))
      (lt_ten_pow_succ_self (n / 10))


/-- Rendering of a Python `int` by an f-string (`str`). -/
def intChars (z : Int) : List Char :=
  if z < 0 then '-' :: natDigits z.natAbs else natDigits z.toNat

/-! ### Python `int(...)` on a string, and `split('.')` -/

def isWs (c : Char) : Bool :=
  c == ' ' || c == '\t' || c == '\n' || c == '\r' || c == '\x0b' || c == '\x0c'

def stripWs (s : List Char) : List Char :=
  ((s.dropWhile isWs).reverse.dropWhile isWs).reverse

def parseDigitsGo (acc : Nat) : List Char → Option Nat
  | [] => some acc
  | c :: cs =>
    if c.isDigit then parseDigitsGo (acc * 10 + digitVal c) cs
    else if c == '_' then
      match cs with
      | d :: cs2 => if d.isDigit then parseDigitsGo (acc * 10 + digitVal d) cs2 else none
      | [] => none
    else none

def parseDigitsU : List Char → Option Nat
  | [] => none
  | c :: cs => if c.isDigit then parseDigitsGo (digitVal c) cs else none

/-- Python `int(s)` for base 10 (restricted to ASCII digits and
whitespace; the script is only ever fed ASCII). -/
def pyInt (s : List Char) : Option Int :=
  match stripWs s with
  | [] => none
  | c :: rest =>
    if c == '-' then (parseDigitsU rest).map (fun n => -(n : Int))
    else if c == '+' then (parseDigitsU rest).map (fun n => (n : Int))
    else (parseDigitsU (c :: rest)).map (fun n => (n : Int))

/-- Python `s.split('.')`. -/
def splitDot : List Char → List (List Char)
  | [] => [[]]
  | c :: cs =>
    match splitDot cs with
    | [] => [[]]
    | h :: t => if c == '.' then [] :: h :: t else (c :: h) :: t

/-- `major, minor, patch = map(int, args.version.split('.'))`:
succeeds exactly when the split has three segments and each parses.
(The `ValueError` from a wrong segment count and the one from a bad
segment are caught by the same handler, so only success/failure and the
resulting triple are observable.) -/
def pyParseVersion (s : List Char) : Option (Int × Int × Int) :=
  match splitDot s with
  | [a, b, c] =>
    match pyInt a, pyInt b, pyInt c with
    | some x, some y, some z => some (x, y, z)
    | _, _, _ => none
  | _ => none

/-! ### The fixed regular expressions -/

/-- A pattern of the shape `lit (\d+ sep₁) (\d+ sep₂) …` together with the
digit strings its replacement carries.  `parts` lists, in order, the
rendered replacement digits and the literal separator following each
`\d+` (the final separator may be empty when the pattern ends in `\d+`). -/
structure Rule where
  lit : List Char
  parts : List (List Char × List Char)
  lit_ne : lit ≠ []

def stripPre : List Char → List Char → Option (List Char)
  | [], s => some s
  | _ :: _, [] => none
  | p :: ps, c :: cs => if p == c then stripPre ps cs else none

def matchTail : List (List Char × List Char) → List Char → Option (List Char)
  | [], s => some s
  | (_, sep) :: ps, s =>
    if (s.takeWhile Char.isDigit).isEmpty then none
    else
      match stripPre sep (s.dropWhile Char.isDigit) with
      | some s2 => matchTail ps s2
      | none => none

/-- Greedy match of a rule's pattern at the head of `s`; returns the
remainder after the matched span. -/
def matchAt (r : Rule) (s : List Char) : Option (List Char) :=
  match stripPre r.lit s with
  | some s1 => matchTail r.parts s1
  | none => none

def partsRender (parts : List (List Char × List Char)) : List Char :=
  parts.foldr (fun p acc => p.1 ++ p.2 ++ acc) []

/-- The replacement text of a rule (the f-string in the script). -/
def replOf (r : Rule) : List Char := r.lit ++ partsRender r.parts

def pick : List Rule → List Char → Option (Rule × List Char)
  | [], _ => none
  | r :: rs, s =>
    match matchAt r s with
    | some t => some (r, t)
    | none => pick rs s

theorem dropWhile_length_le (p : Char → Bool) (l : List Char) :
    (l.dropWhile p).length ≤ l.length := by
  have h := congrArg List.length (List.takeWhile_append_dropWhile (p := p) (l := l))
  simp only [List.length_append] at h
  omega

theorem stripPre_eq_append {p : List Char} :
    ∀ {s u : List Char}, stripPre p s = some u → s = p ++ u := by
  induction p with
  | nil =>
    intro s u h
    have : s = u := by simpa [stripPre] using h
    simp [this]
  | cons a ps ih =>
    intro s u h
    cases s with
    | nil => simp [stripPre] at h
    | cons c cs =>
      simp only [stripPre] at h
      by_cases hac : a == c
      · simp only [hac, if_true] at h
        have h1 := ih h
        have h2 : a = c := eq_of_beq hac
        simp [h1, h2]
      · simp [hac] at h

theorem matchTail_le : ∀ {ps : List (List Char × List Char)} {s t : List Char},
    matchTail ps s = some t → t.length ≤ s.length := by
  intro ps
  induction ps with
  | nil => intro s t h; simp [matchTail] at h; simp [h]
  | cons p ps ih =>
    intro s t h
    obtain ⟨ds, sep⟩ := p
    simp only [matchTail] at h
    by_cases he : (s.takeWhile Char.isDigit).isEmpty
    · simp [he] at h
    · simp only [he, if_false] at h
      cases hsp : stripPre sep (s.dropWhile Char.isDigit) with
      | none => simp [hsp] at h
      | some s2 =>
        simp only [hsp] at h
        have h1 := ih h
        have h2 : s2.length ≤ (s.dropWhile Char.isDigit).length := by
          have := stripPre_eq_append hsp
          simp [this]
        have h3 : (s.dropWhile Char.isDigit).length ≤ s.length :=
          dropWhile_length_le _ _
        omega

theorem matchAt_lt {r : Rule} {s t : List Char} (h : matchAt r s = some t) :
    t.length < s.length := by
  unfold matchAt at h
  cases hsp : stripPre r.lit s with
  | none => simp [hsp] at h
  | some s1 =>
    simp only [hsp] at h
    have h1 := matchTail_le h
    have h2 := stripPre_eq_append hsp
    have h3 : r.lit.length ≠ 0 := by
      simpa [List.length_eq_zero] using r.lit_ne
    simp [h2]
    omega

theorem pick_lt : ∀ {rs : List Rule} {s : List Char} {rt : Rule × List Char},
    pick rs s = some rt → rt.2.length < s.length := by
  intro rs
  induction rs with
  | nil => intro s rt h; simp [pick] at h
  | cons r rs ih =>
    intro s rt h
    simp only [pick] at h
    cases hm : matchAt r s with
    | some t =>
      simp only [hm] at h
      cases h
      exact matchAt_lt hm
    | none =>
      simp only [hm] at h
      exact ih h

/-- Fuel-indexed left-to-right non-overlapping replace-all scan. -/
def subAllF : Nat → List Rule → List Char → List Char
  | 0, _, s => s
  | _ + 1, _, [] => []
  | f + 1, rs, c :: cs =>
    match pick rs (c :: cs) with
    | some rt => replOf rt.1 ++ subAllF f rs rt.2
    | none => c :: subAllF f rs cs

/-- `re.sub` semantics for a list of rules: scan left to right; at each
position replace the (unique, for our divergent rules) matching pattern
and continue after the matched span.  A single `re.sub(p, r, s)` of the
script is `subAll [rule] s`. -/
def subAll (rs : List Rule) (s : List Char) : List Char := subAllF s.length rs s

theorem subAllF_nil (f : Nat) (rs : List Rule) : subAllF f rs [] = [] := by
  cases f <;> rfl

theorem subAllF_congr : ∀ (f g : Nat) (rs : List Rule) (s : List Char),
    s.length ≤ f → s.length ≤ g → subAllF f rs s = subAllF g rs s := by
  intro f
  induction f with
  | zero =>
    intro g rs s hf _
    have : s = [] := by
      cases s with
      | nil => rfl
      | cons a l => simp at hf
    simp [this, subAllF_nil]
  | succ f ih =>
    intro g rs s hf hg
    cases s with
    | nil => simp [subAllF_nil]
    | cons c cs =>
      cases g with
      | zero => simp at hg
      | succ g =>
        cases hp : pick rs (c :: cs) with
        | some rt =>
          have hlt := pick_lt hp
          simp only [List.length_cons] at hf hg hlt
          simp only [subAllF, hp]
          rw [ih g rs rt.2 (by omega) (by omega)]
        | none =>
          simp only [List.length_cons] at hf hg
          simp only [subAllF, hp]
          rw [ih g rs cs (by omega) (by omega)]

theorem subAll_nil (rs : List Rule) : subAll rs [] = [] := rfl

theorem subAll_cons_some {rs : List Rule} {c : Char} {cs : List Char}
    {r : Rule} {t : List Char} (hp : pick rs (c :: cs) = some (r, t)) :
    subAll rs (c :: cs) = replOf r ++ subAll rs t := by
  have hlt := pick_lt hp
  simp only [List.length_cons] at hlt
  unfold subAll
  simp only [List.length_cons, subAllF, hp]
  rw [subAllF_congr cs.length t.length rs t (by omega) (by omega)]

theorem subAll_cons_none {rs : List Rule} {c : Char} {cs : List Char}
    (hp : pick rs (c :: cs) = none) :
    subAll rs (c :: cs) = c :: subAll rs cs := by
  unfold subAll
  simp only [List.length_cons, subAllF, hp]

/-! ### Well-formedness predicates for rules -/

/-- `true` when the text does not start with a digit (in particular on
empty text).  The greedy `\d+` at the end of a pattern consumes a
maximal digit run, so a match remainder always satisfies this. -/
def headND (s : List Char) : Bool :=
  match s with
  | [] => true
  | c :: _ => !c.isDigit

def dsOK (ds : List Char) : Bool := !ds.isEmpty && ds.all Char.isDigit

def sepOK (b : Char) (sep : List Char) : Bool :=
  match sep with
  | [] => false
  | c :: _ => !c.isDigit && sep.all (fun x => x != b)

def partsOK (b : Char) : List (List Char × List Char) → Bool
  | [] => true
  | [(ds, sep)] => dsOK ds && (sep.isEmpty || sepOK b sep)
  | (ds, sep) :: rest => dsOK ds && sepOK b sep && partsOK b rest

def closedSeps : List (List Char) → Bool
  | [] => true
  | [sep] => !sep.isEmpty
  | _ :: rest => closedSeps rest

/-- A rule is "closed" when its pattern ends with a literal separator
rather than a trailing `\d+`. -/
def sepsClosed (r : Rule) : Bool := closedSeps (r.parts.map Prod.snd)

/-- Well-formedness of a rule with respect to a barrier character `b`:
the literal starts with `b` and contains `b` nowhere else, `b` is not a
digit, and every digit run / separator of the pattern is well-shaped and
`b`-free.  All five header rules satisfy this with `b = '#'`, the cmake
rule with `b = 'p'`. -/
def goodRule (b : Char) (r : Rule) : Bool :=
  (match r.lit with
   | [] => false
   | c :: cs => c == b && cs.all (fun x => x != b)) &&
  !b.isDigit && partsOK b r.parts

/-- The two literals disagree at some index below both lengths; two such
patterns can never match at the same position. -/
def divChars : List Char → List Char → Bool
  | a :: as, c :: cs => a != c || divChars as cs
  | _, _ => false

/-- `re.search(pattern, s) is not None`: some position of `s` begins a
match.  (For these backtracking-free patterns, a greedy match exists at a
position iff any match does.) -/
def hasMatch (r : Rule) : List Char → Bool
  | [] => (matchAt r []).isSome
  | c :: cs => (matchAt r (c :: cs)).isSome || hasMatch r cs

def startsW (n h : List Char) : Bool := (stripPre n h).isSome

/-- Python's substring test `n in h`. -/
def hasSub (n : List Char) : List Char → Bool
  | [] => startsW n []
  | c :: cs => startsW n (c :: cs) || hasSub n cs

/-! ### The five header rules and the cmake rule -/

def toL (s : String) : List Char := s.toList

/-- `re.sub(r'#define PEHINT_VERSION_MAJOR \d+', ...)`. -/
def majorRule (z : Int) : Rule :=
  ⟨toL "#define PEHINT_VERSION_MAJOR ", [(intChars z, [])], by decide⟩

/-- `re.sub(r'#define PEHINT_VERSION_MINOR \d+', ...)`. -/
def minorRule (z : Int) : Rule :=
  ⟨toL "#define PEHINT_VERSION_MINOR ", [(intChars z, [])], by decide⟩

/-- `re.sub(r'#define PEHINT_VERSION_PATCH \d+', ...)`. -/
def patchRule (z : Int) : Rule :=
  ⟨toL "#define PEHINT_VERSION_PATCH ", [(intChars z, [])], by decide⟩

/-- `re.sub(r'#define PEHINT_VERSION_STRING "\d+\.\d+\.\d+"', ...)`. -/
def strRule (a b c : Int) : Rule :=
  ⟨toL "#define PEHINT_VERSION_STRING \"",
   [(intChars a, toL "."), (intChars b, toL "."), (intChars c, toL "\"")], by decide⟩

/-- `re.sub(r'#define PEHINT_VERSION_STRING_FULL "v\d+\.\d+\.\d+"', ...)`. -/
def strFullRule (a b c : Int) : Rule :=
  ⟨toL "#define PEHINT_VERSION_STRING_FULL \"v",
   [(intChars a, toL "."), (intChars b, toL "."), (intChars c, toL "\"")], by decide⟩

/-- The pure text transformation of `update_version_header`: the five
`re.sub` calls, in the order the script performs them. -/
def headerTransform (ma mi pa : Int) (s : List Char) : List Char :=
  subAll [strFullRule ma mi pa]
    (subAll [strRule ma mi pa]
      (subAll [patchRule pa]
        (subAll [minorRule mi]
          (subAll [majorRule ma] s))))

/-- `r'project\(PEHint VERSION \d+\.\d+\.\d+'`. -/
def cmakeRule (a b c : Int) : Rule :=
  ⟨toL "project(PEHint VERSION ",
   [(intChars a, toL "."), (intChars b, toL "."), (intChars c, [])], by decide⟩

/-- The literal `f'VERSION {major}.{minor}.{patch}'` used in the
equality short-circuit of `update_cmake_version`. -/
def cmakeNeedle (a b c : Int) : List Char :=
  toL "VERSION " ++ intChars a ++ '.' :: intChars b ++ '.' :: intChars c

inductive CmakeOutcome
  | alreadyCorrect
  | updated
  | notFound
deriving DecidableEq

/-- `update_cmake_version`: returns the (possibly rewritten) document
and which of the three informational outcomes occurred; the file is
written back only in the `updated` case. -/
def update_cmake_version (a b c : Int) (content : List Char) :
    List Char × CmakeOutcome :=
  if hasSub (cmakeNeedle a b c) content then (content, .alreadyCorrect)
  else if hasMatch (cmakeRule a b c) content then
    (subAll [cmakeRule a b c] content, .updated)
  else (content, .notFound)

/-! ### The driver -/

/-- The two files the script touches, as an abstract file system
(`none` = the file does not exist). -/
structure FS where
  versionH : Option (List Char)
  cmake : Option (List Char)
deriving DecidableEq

structure RunResult where
  exitCode : Nat
  fs : FS
deriving DecidableEq

/-- The driver `main`: parse the version argument (exit 1 on failure),
require `src/version.h` to exist (exit 1 otherwise), stop before any
write under `--dry-run`, else rewrite the header and then the cmake
file.  A missing `CMakeLists.txt` makes `read_text` raise an uncaught
`FileNotFoundError` after the header was already written: the process
dies with a nonzero status (modelled as exit code 1); the spec notes
this case as deliberately unaddressed. -/
def pyMain (version : List Char) (dryRun : Bool) (fs : FS) : RunResult :=
  match pyParseVersion version with
  | none => ⟨1, fs⟩
  | some (ma, mi, pa) =>
    match fs.versionH with
    | none => ⟨1, fs⟩
    | some hContent =>
      if dryRun then ⟨0, fs⟩
      else
        match fs.cmake with
        | none => ⟨1, { versionH := some (headerTransform ma mi pa hContent), cmake := none }⟩
        | some cContent =>
          ⟨0, { versionH := some (headerTransform ma mi pa hContent),
                cmake := some (update_cmake_version ma mi pa cContent).1 }⟩

/-! ### Facts about decimal renderings -/

theorem natDigits_mem_digits : ∀ {n : Nat} {c : Char},
    c ∈ natDigits n → c ∈ toL "0123456789" := by
  intro n
  induction n using Nat.strong_induction_on with
  | _ n ih =>
    intro c hc
    rw [natDigits_eq] at hc
    by_cases h10 : n < 10
    · simp only [h10, if_true, List.mem_singleton] at hc
      subst hc
      interval_cases n <;> decide
    · simp only [h10, if_false, List.mem_append, List.mem_singleton] at hc
      rcases hc with hc | hc
      · exact ih (n / 10) (Nat.div_lt_self (by omega) (by omega)) hc
      · subst hc
        have : n % 10 < 10 := Nat.mod_lt _ (by omega)
        interval_cases h : (n % 10) <;> decide

theorem mem_digits_isDigit {c : Char} (h : c ∈ toL "0123456789") :
    c.isDigit = true := by
  fin_cases h <;> decide

theorem mem_digits_not_ws {c : Char} (h : c ∈ toL "0123456789") :
    isWs c = false := by
  fin_cases h <;> decide

theorem natDigits_all_digit {n : Nat} {c : Char} (h : c ∈ natDigits n) :
    c.isDigit = true :=
  mem_digits_isDigit (natDigits_mem_digits h)

theorem natDigits_ne_nil (n : Nat) : natDigits n ≠ [] := by
  rw [natDigits_eq]
  by_cases h : n < 10 <;> simp [h]

/-- A digit character is distinct from any non-digit character. -/
theorem digit_ne {c x : Char} (hc : c.isDigit = true) (hx : x.isDigit = false) :
    c ≠ x := by
  intro he
  rw [he, hx] at hc
  exact Bool.false_ne_true hc

theorem digitVal_toDigitChar {d : Nat} (h : d < 10) :
    digitVal (toDigitChar d) = d := by
  interval_cases d <;> decide

theorem natDigits_foldl (n : Nat) : ∀ acc : Nat,
    List.foldl (fun a c => a * 10 + digitVal c) acc (natDigits n)
      = acc * 10 ^ (natDigits n).length + n := by
  induction n using Nat.strong_induction_on with
  | _ n ih =>
    intro acc
    rw [natDigits_eq]
    by_cases h10 : n < 10
    · simp only [h10, if_true, List.foldl_cons, List.foldl_nil, List.length_singleton]
      rw [digitVal_toDigitChar h10]
      ring
    · simp only [h10, if_false, List.foldl_append, List.foldl_cons, List.foldl_nil,
        List.length_append, List.length_singleton]
      rw [ih (n / 10) (Nat.div_lt_self (by omega) (by omega)) acc,
        digitVal_toDigitChar (Nat.mod_lt _ (by omega))]
      have hsplit : 10 * (n / 10) + n % 10 = n := Nat.div_add_mod n 10
      calc (acc * 10 ^ (natDigits (n / 10)).length + n / 10) * 10 + n % 10
          = acc * (10 ^ (natDigits (n / 10)).length * 10) + (10 * (n / 10) + n % 10) := by
            ring
        _ = acc * 10 ^ ((natDigits (n / 10)).length + 1) + n := by rw [hsplit, pow_succ]

theorem parseDigitsGo_all_digit : ∀ {ds : List Char} (acc : Nat),
    (∀ c ∈ ds, c.isDigit = true) →
    parseDigitsGo acc ds = some (List.foldl (fun a c => a * 10 + digitVal c) acc ds) := by
  intro ds
  induction ds with
  | nil => intro acc _; rfl
  | cons c cs ih =>
    intro acc h
    have hc : c.isDigit = true := h c (by simp)
    rw [parseDigitsGo.eq_def]
    simp only [hc, if_true, List.foldl_cons, ite_true]
    exact ih _ (fun x hx => h x (by simp [hx]))

theorem parseDigitsU_natDigits (n : Nat) : parseDigitsU (natDigits n) = some n := by
  rcases h : natDigits n with _ | ⟨c, cs⟩
  · exact absurd h (natDigits_ne_nil n)
  · have hc : c.isDigit = true := natDigits_all_digit (by rw [h]; simp)
    have hall : ∀ x ∈ cs, x.isDigit = true := by
      intro x hx
      exact natDigits_all_digit (by rw [h]; simp [hx])
    simp only [parseDigitsU, hc, if_true]
    rw [parseDigitsGo_all_digit _ hall]
    have h2 : List.foldl (fun a c => a * 10 + digitVal c) 0 (natDigits n)
        = 0 * 10 ^ (natDigits n).length + n := natDigits_foldl n 0
    rw [h] at h2
    simp only [List.foldl_cons, Nat.zero_mul, Nat.zero_add] at h2
    rw [h2]

theorem dropWhile_all_false {p : Char → Bool} {l : List Char}
    (h : ∀ c ∈ l, p c = false) : l.dropWhile p = l := by
  cases l with
  | nil => rfl
  | cons c cs =>
    rw [List.dropWhile_cons_of_neg]
    simp [h c (by simp)]

theorem stripWs_eq_self {l : List Char} (h : ∀ c ∈ l, isWs c = false) :
    stripWs l = l := by
  unfold stripWs
  rw [dropWhile_all_false h, dropWhile_all_false (by simp only [List.mem_reverse]; exact h),
    List.reverse_reverse]

theorem pyInt_natDigits (n : Nat) : pyInt (natDigits n) = some (n : Int) := by
  unfold pyInt
  rw [stripWs_eq_self (fun c hc => mem_digits_not_ws (natDigits_mem_digits hc))]
  rcases h : natDigits n with _ | ⟨c, cs⟩
  · exact absurd h (natDigits_ne_nil n)
  · have hc : c.isDigit = true := natDigits_all_digit (by rw [h]; simp)
    have hdash : (c == '-') = false := by
      simp only [beq_eq_false_iff_ne]
      exact digit_ne hc (by decide)
    have hplus : (c == '+') = false := by
      simp only [beq_eq_false_iff_ne]
      exact digit_ne hc (by decide)
    simp only [hdash, hplus, if_false, Bool.false_eq_true]
    rw [← h, parseDigitsU_natDigits]
    rfl

/-! ### Facts about `split('.')` -/

theorem splitDot_ne_nil : ∀ s : List Char, splitDot s ≠ [] := by
  intro s
  induction s with
  | nil => simp [splitDot]
  | cons c cs ih =>
    simp only [splitDot]
    rcases h : splitDot cs with _ | ⟨hd, tl⟩
    · exact absurd h ih
    · by_cases hc : c == '.' <;> simp [hc]

theorem splitDot_append {a : List Char} (r : List Char)
    (h : ∀ c ∈ a, (c == '.') = false) :
    splitDot (a ++ '.' :: r) = a :: splitDot r := by
  induction a with
  | nil =>
    simp only [List.nil_append, splitDot]
    rcases hr : splitDot r with _ | ⟨hd, tl⟩
    · exact absurd hr (splitDot_ne_nil r)
    · simp
  | cons c a ih =>
    have hc : (c == '.') = false := h c (by simp)
    have ha : ∀ x ∈ a, (x == '.') = false := fun x hx => h x (by simp [hx])
    simp [List.cons_append, splitDot, ih ha, hc]

theorem splitDot_single {a : List Char} (h : ∀ c ∈ a, (c == '.') = false) :
    splitDot a = [a] := by
  induction a with
  | nil => rfl
  | cons c a ih =>
    have hc : (c == '.') = false := h c (by simp)
    have ha : ∀ x ∈ a, (x == '.') = false := fun x hx => h x (by simp [hx])
    simp only [splitDot, ih ha, hc, if_false, Bool.false_eq_true]

theorem natDigits_ne_dot {n : Nat} : ∀ c ∈ natDigits n, (c == '.') = false := by
  intro c hc
  simp only [beq_eq_false_iff_ne]
  exact digit_ne (natDigits_all_digit hc) (by decide)

/-- Parsing the canonical rendering `a.b.c` of a non-negative triple. -/
theorem pyParseVersion_canonical (a b c : Nat) :
    pyParseVersion (natDigits a ++ '.' :: (natDigits b ++ '.' :: natDigits c))
      = some ((a : Int), (b : Int), (c : Int)) := by
  unfold pyParseVersion
  rw [splitDot_append _ natDigits_ne_dot, splitDot_append _ natDigits_ne_dot,
    splitDot_single natDigits_ne_dot]
  simp only [pyInt_natDigits]

/-! ### Basic facts about the matcher -/

theorem headND_nil : headND [] = true := rfl

theorem headND_cons (c : Char) (l : List Char) : headND (c :: l) = !c.isDigit := rfl

theorem stripPre_self_append : ∀ (p x : List Char), stripPre p (p ++ x) = some x := by
  intro p
  induction p with
  | nil => intro x; rfl
  | cons a ps ih => intro x; simp [stripPre, ih]

theorem stripPre_div : ∀ {p q s u v : List Char}, divChars p q = true →
    stripPre p s = some u → stripPre q s = some v → False := by
  intro p
  induction p with
  | nil => intro q s u v hd; simp [divChars] at hd
  | cons a ps ih =>
    intro q s u v hd hp hq
    cases q with
    | nil => simp [divChars] at hd
    | cons c qs =>
      cases s with
      | nil => simp [stripPre] at hp
      | cons d ds =>
        simp only [stripPre] at hp hq
        by_cases had : a == d
        · simp only [had, if_true] at hp
          by_cases hcd : c == d
          · simp only [hcd, if_true] at hq
            simp only [divChars, Bool.or_eq_true] at hd
            rcases hd with hd | hd
            · rw [bne_iff_ne] at hd
              exact hd ((eq_of_beq had).trans (eq_of_beq hcd).symm)
            · exact ih hd hp hq
          · simp [hcd] at hq
        · simp [had] at hp

theorem stripPre_div_append : ∀ {p q : List Char} (y : List Char),
    divChars p q = true → stripPre p (q ++ y) = none := by
  intro p
  induction p with
  | nil => intro q y hd; simp [divChars] at hd
  | cons a ps ih =>
    intro q y hd
    cases q with
    | nil => simp [divChars] at hd
    | cons c qs =>
      simp only [divChars, Bool.or_eq_true] at hd
      simp only [List.cons_append, stripPre]
      by_cases hac : a == c
      · rcases hd with hd | hd
        · rw [bne_iff_ne] at hd
          exact absurd (eq_of_beq hac) hd
        · simp only [hac, if_true]
          exact ih y hd
      · simp [hac]

theorem divChars_symm : ∀ p q : List Char, divChars p q = divChars q p := by
  intro p
  induction p with
  | nil => intro q; cases q <;> rfl
  | cons a ps ih =>
    intro q
    cases q with
    | nil => rfl
    | cons c qs =>
      simp only [divChars, ih qs]
      have hcomm : (a != c) = (c != a) := by
        by_cases h : a = c
        · subst h; rfl
        · have h1 : (a != c) = true := bne_iff_ne.mpr h
          have h2 : (c != a) = true := bne_iff_ne.mpr (fun he => h he.symm)
          rw [h1, h2]
      rw [hcomm]

theorem takeWhile_digits_append {ds x : List Char}
    (hds : ∀ c ∈ ds, c.isDigit = true) (hx : headND x = true) :
    (ds ++ x).takeWhile Char.isDigit = ds ∧ (ds ++ x).dropWhile Char.isDigit = x := by
  induction ds with
  | nil =>
    simp only [List.nil_append]
    cases x with
    | nil => simp
    | cons c cs =>
      rw [headND_cons, Bool.not_eq_true'] at hx
      constructor
      · rw [List.takeWhile_cons_of_neg]
        simp [hx]
      · rw [List.dropWhile_cons_of_neg]
        simp [hx]
  | cons d ds ih =>
    have hd : d.isDigit = true := hds d (by simp)
    have hrest := ih (fun c hc => hds c (by simp [hc]))
    simp only [List.cons_append]
    constructor
    · rw [List.takeWhile_cons_of_pos (by simp [hd])]
      rw [hrest.1]
    · rw [List.dropWhile_cons_of_pos (by simp [hd])]
      exact hrest.2

theorem dropWhile_headND (l : List Char) :
    headND (l.dropWhile Char.isDigit) = true := by
  induction l with
  | nil => rfl
  | cons c cs ih =>
    by_cases hc : c.isDigit
    · rw [List.dropWhile_cons_of_pos (by simp [hc])]
      exact ih
    · rw [List.dropWhile_cons_of_neg (by simp [hc])]
      rw [headND_cons]
      simp only [Bool.not_eq_true] at hc
      simp [hc]

theorem dsOK_elim {ds : List Char} (h : dsOK ds = true) :
    ds ≠ [] ∧ ∀ c ∈ ds, c.isDigit = true := by
  cases ds with
  | nil => simp [dsOK] at h
  | cons d tl =>
    simp only [dsOK, List.isEmpty_cons, Bool.not_false, Bool.true_and,
      List.all_eq_true] at h
    exact ⟨by simp, fun c hc => h c hc⟩

theorem sepOK_elim {b : Char} {sep : List Char} (h : sepOK b sep = true) :
    (∃ hd tl, sep = hd :: tl ∧ hd.isDigit = false) ∧ ∀ c ∈ sep, c ≠ b := by
  cases sep with
  | nil => simp [sepOK] at h
  | cons hd tl =>
    simp only [sepOK, Bool.and_eq_true, Bool.not_eq_true', List.all_eq_true] at h
    obtain ⟨h1, h2⟩ := h
    refine ⟨⟨hd, tl, rfl, h1⟩, fun c hc => ?_⟩
    have := h2 c hc
    rwa [bne_iff_ne] at this

/-- Destructuring of `partsOK` at a cons cell. -/
theorem partsOK_cons {b : Char} {ds sep : List Char}
    {rest : List (List Char × List Char)}
    (h : partsOK b ((ds, sep) :: rest) = true) :
    dsOK ds = true ∧ (∀ c ∈ sep, c ≠ b) ∧ partsOK b rest ∧
      (rest ≠ [] → sepOK b sep = true) ∧
      (rest = [] → sep = [] ∨ sepOK b sep = true) := by
  cases rest with
  | nil =>
    simp only [partsOK, Bool.and_eq_true, Bool.or_eq_true] at h
    obtain ⟨h1, h2⟩ := h
    refine ⟨h1, ?_, rfl, by intro hne; exact absurd rfl hne, ?_⟩
    · rcases h2 with h2 | h2
      · simp only [List.isEmpty_eq_true] at h2
        subst h2
        intro c hc
        simp at hc
      · exact (sepOK_elim h2).2
    · intro _
      rcases h2 with h2 | h2
      · simp only [List.isEmpty_eq_true] at h2
        exact Or.inl h2
      · exact Or.inr h2
  | cons p2 rest2 =>
    simp only [partsOK, Bool.and_eq_true] at h
    obtain ⟨⟨h1, h2⟩, h3⟩ := h
    exact ⟨h1, (sepOK_elim h2).2, h3, fun _ => h2, fun he => by simp at he⟩

theorem goodRule_lit {b : Char} {r : Rule} (h : goodRule b r = true) :
    ∃ lt, r.lit = b :: lt ∧ ∀ c ∈ lt, c ≠ b := by
  simp only [goodRule, Bool.and_eq_true] at h
  obtain ⟨⟨h1, _⟩, _⟩ := h
  rcases hl : r.lit with _ | ⟨c, cs⟩
  · rw [hl] at h1; simp at h1
  · rw [hl] at h1
    simp only [Bool.and_eq_true, List.all_eq_true] at h1
    obtain ⟨hcb, hall⟩ := h1
    refine ⟨cs, by rw [eq_of_beq hcb], fun x hx => ?_⟩
    have := hall x hx
    rwa [bne_iff_ne] at this

theorem goodRule_b_not_digit {b : Char} {r : Rule} (h : goodRule b r = true) :
    b.isDigit = false := by
  simp only [goodRule, Bool.and_eq_true, Bool.not_eq_true'] at h
  exact h.1.2

theorem goodRule_parts {b : Char} {r : Rule} (h : goodRule b r = true) :
    partsOK b r.parts = true := by
  simp only [goodRule, Bool.and_eq_true] at h
  exact h.2

theorem matchAt_head_ne {r : Rule} {b c : Char} {lt x : List Char}
    (hlit : r.lit = b :: lt) (hc : c ≠ b) : matchAt r (c :: x) = none := by
  unfold matchAt
  rw [hlit]
  simp only [stripPre]
  have : (b == c) = false := by
    simp only [beq_eq_false_iff_ne]
    exact fun he => hc he.symm
  simp [this]

theorem matchTail_congr : ∀ {ps ps' : List (List Char × List Char)} {y : List Char},
    ps.map Prod.snd = ps'.map Prod.snd → matchTail ps y = matchTail ps' y := by
  intro ps
  induction ps with
  | nil =>
    intro ps' y h
    cases ps' with
    | nil => rfl
    | cons p t => simp at h
  | cons p ps ih =>
    intro ps' y h
    obtain ⟨d, sep⟩ := p
    cases ps' with
    | nil => simp at h
    | cons p' ps'2 =>
      obtain ⟨d', sep'⟩ := p'
      simp only [List.map_cons, List.cons.injEq] at h
      obtain ⟨hsep, hmaps⟩ := h
      simp only [matchTail, hsep]
      by_cases he : (y.takeWhile Char.isDigit).isEmpty
      · simp [he]
      · simp only [he, if_false, Bool.false_eq_true]
        cases hsp : stripPre sep' (y.dropWhile Char.isDigit) with
        | none => simp
        | some y2 => simp only [ih hmaps]

theorem matchAt_congr {r r' : Rule} {s : List Char} (hlit : r.lit = r'.lit)
    (hps : r.parts.map Prod.snd = r'.parts.map Prod.snd) :
    matchAt r s = matchAt r' s := by
  unfold matchAt
  rw [hlit]
  cases stripPre r'.lit s with
  | none => rfl
  | some s1 => exact matchTail_congr hps

theorem partsRender_cons (ds sep : List Char) (rest : List (List Char × List Char)) :
    partsRender ((ds, sep) :: rest) = ds ++ (sep ++ partsRender rest) := by
  simp [partsRender]

theorem partsRender_bfree {b : Char} : ∀ {parts : List (List Char × List Char)},
    b.isDigit = false → partsOK b parts = true →
    ∀ c ∈ partsRender parts, c ≠ b := by
  intro parts
  induction parts with
  | nil => intro _ _ c hc; simp [partsRender] at hc
  | cons p rest ih =>
    intro hbd h c hc
    obtain ⟨ds, sep⟩ := p
    obtain ⟨hds, hsep, hrest, _, _⟩ := partsOK_cons h
    rw [partsRender_cons] at hc
    simp only [List.mem_append] at hc
    rcases hc with hc | hc | hc
    · exact digit_ne ((dsOK_elim hds).2 c hc) hbd
    · exact hsep c hc
    · exact ih hbd hrest c hc

/-- Full analysis of a successful `matchTail`: the matched span `m` is
barrier-free, the remainder starts with a non-digit whenever the pattern
ends in `\d+`, and the same span matches again in front of any suffix
respecting that boundary condition. -/
theorem matchTail_main {b : Char} (hbd : b.isDigit = false) :
    ∀ {parts : List (List Char × List Char)} {y t : List Char},
    partsOK b parts = true → matchTail parts y = some t →
    ∃ m, y = m ++ t ∧ (∀ c ∈ m, c ≠ b) ∧
      (closedSeps (parts.map Prod.snd) = false → headND t = true) ∧
      (∀ t', (closedSeps (parts.map Prod.snd) = true ∨ headND t' = true) →
        matchTail parts (m ++ t') = some t') := by
  intro parts
  induction parts with
  | nil =>
    intro y t _ h
    simp only [matchTail, Option.some.injEq] at h
    subst h
    refine ⟨[], rfl, by simp, ?_, fun t' _ => rfl⟩
    intro hc
    simp [closedSeps] at hc
  | cons p rest ih =>
    intro y t hOK h
    obtain ⟨ds, sep⟩ := p
    obtain ⟨hds, hsepfree, hrestOK, hsep_ne, hsep_nil⟩ := partsOK_cons hOK
    simp only [matchTail] at h
    by_cases he : (y.takeWhile Char.isDigit).isEmpty
    · simp [he] at h
    · simp only [he, if_false, Bool.false_eq_true] at h
      cases hsp : stripPre sep (y.dropWhile Char.isDigit) with
      | none => rw [hsp] at h; simp at h
      | some y2 =>
        rw [hsp] at h
        have hysplit : y = y.takeWhile Char.isDigit ++ y.dropWhile Char.isDigit :=
          (List.takeWhile_append_dropWhile (p := Char.isDigit) (l := y)).symm
        have hdrop : y.dropWhile Char.isDigit = sep ++ y2 := stripPre_eq_append hsp
        have hdr_digits : ∀ c ∈ y.takeWhile Char.isDigit, c.isDigit = true :=
          fun c hc => List.mem_takeWhile_imp hc
        have hdr_free : ∀ c ∈ y.takeWhile Char.isDigit, c ≠ b :=
          fun c hc => digit_ne (hdr_digits c hc) hbd
        have hdr_ne : (y.takeWhile Char.isDigit).isEmpty = false := by
          simpa using he
        cases rest with
        | nil =>
          have hsep2 : sep = [] ∨ sepOK b sep = true := hsep_nil rfl
          have ht : t = y2 := by
            simp only [matchTail, Option.some.injEq] at h
            exact h.symm
          subst ht
          rcases hsep2 with hsep0 | hsepok
          · -- pattern ends in a bare `\d+`
            subst hsep0
            have hy2 : y.dropWhile Char.isDigit = t := by simpa using hdrop
            refine ⟨y.takeWhile Char.isDigit, ?_, hdr_free, ?_, ?_⟩
            · rw [← hy2]; exact hysplit
            · intro _
              rw [← hy2]
              exact dropWhile_headND y
            · intro t' hcond
              have hND : headND t' = true := by
                rcases hcond with hc | hc
                · simp [closedSeps] at hc
                · exact hc
              have hta := takeWhile_digits_append hdr_digits hND
              simp only [matchTail, hta.1, hta.2, hdr_ne]
              simp [stripPre]
          · -- pattern ends in a nonempty separator
            obtain ⟨⟨c0, sepTl, hsepshape, hc0⟩, _⟩ := sepOK_elim hsepok
            refine ⟨y.takeWhile Char.isDigit ++ sep, ?_, ?_, ?_, ?_⟩
            · calc y = y.takeWhile Char.isDigit ++ y.dropWhile Char.isDigit := hysplit
                _ = y.takeWhile Char.isDigit ++ (sep ++ t) := by rw [hdrop]
                _ = (y.takeWhile Char.isDigit ++ sep) ++ t := by
                    rw [List.append_assoc]
            · intro c hc
              rcases List.mem_append.1 hc with hc | hc
              · exact hdr_free c hc
              · exact hsepfree c hc
            · intro hc
              rw [hsepshape] at hc
              simp [closedSeps] at hc
            · intro t' _
              have hNDsep : headND (sep ++ t') = true := by
                rw [hsepshape, List.cons_append, headND_cons, hc0]
                rfl
              have hta := takeWhile_digits_append hdr_digits hNDsep
              rw [List.append_assoc]
              simp only [matchTail, hta.1, hta.2, hdr_ne, stripPre_self_append]
              simp
        | cons p2 rest2 =>
          have hsepok : sepOK b sep = true := hsep_ne (by simp)
          obtain ⟨⟨c0, sepTl, hsepshape, hc0⟩, _⟩ := sepOK_elim hsepok
          obtain ⟨m2, hy2, hm2free, hm2head, hm2tr⟩ := ih hrestOK h
          refine ⟨y.takeWhile Char.isDigit ++ (sep ++ m2), ?_, ?_, ?_, ?_⟩
          · calc y = y.takeWhile Char.isDigit ++ y.dropWhile Char.isDigit := hysplit
              _ = y.takeWhile Char.isDigit ++ (sep ++ (m2 ++ t)) := by rw [hdrop, hy2]
              _ = (y.takeWhile Char.isDigit ++ (sep ++ m2)) ++ t := by
                  simp [List.append_assoc]
          · intro c hc
            rcases List.mem_append.1 hc with hc | hc
            · exact hdr_free c hc
            · rcases List.mem_append.1 hc with hc | hc
              · exact hsepfree c hc
              · exact hm2free c hc
          · intro hc
            apply hm2head
            simpa [closedSeps] using hc
          · intro t' hcond
            have hNDsep : headND (sep ++ (m2 ++ t')) = true := by
              rw [hsepshape, List.cons_append, headND_cons, hc0]
              rfl
            have hta := takeWhile_digits_append hdr_digits hNDsep
            rw [List.append_assoc, List.append_assoc]
            simp only [matchTail, hta.1, hta.2, hdr_ne, stripPre_self_append]
            apply hm2tr
            simpa [closedSeps] using hcond

/-- Full analysis of a successful greedy match of a well-formed rule. -/
theorem matchAt_main {b : Char} {r : Rule} {y t : List Char}
    (hg : goodRule b r = true) (h : matchAt r y = some t) :
    ∃ m, y = m ++ t ∧ (∃ mtl, m = b :: mtl ∧ ∀ c ∈ mtl, c ≠ b) ∧
      (sepsClosed r = false → headND t = true) ∧
      (∀ t', (sepsClosed r = true ∨ headND t' = true) → matchAt r (m ++ t') = some t') := by
  obtain ⟨lt, hlit, hltfree⟩ := goodRule_lit hg
  unfold matchAt at h
  cases hsp : stripPre r.lit y with
  | none => rw [hsp] at h; simp at h
  | some s1 =>
    rw [hsp] at h
    obtain ⟨m1, hs1, hm1free, hm1head, hm1tr⟩ :=
      matchTail_main (goodRule_b_not_digit hg) (goodRule_parts hg) h
    have hy : y = r.lit ++ s1 := stripPre_eq_append hsp
    refine ⟨r.lit ++ m1, ?_, ⟨lt ++ m1, ?_, ?_⟩, hm1head, ?_⟩
    · calc y = r.lit ++ s1 := hy
        _ = r.lit ++ (m1 ++ t) := by rw [hs1]
        _ = (r.lit ++ m1) ++ t := by rw [List.append_assoc]
    · rw [hlit]; rfl
    · intro c hc
      rcases List.mem_append.1 hc with hc | hc
      · exact hltfree c hc
      · exact hm1free c hc
    · intro t' hc
      unfold matchAt
      rw [List.append_assoc, stripPre_self_append]
      exact hm1tr t' hc

/-- The replacement text of a well-formed rule matches its own pattern
exactly, for any suffix respecting the boundary condition. -/
theorem matchTail_render_self {b : Char} (_hbd : b.isDigit = false) :
    ∀ {parts : List (List Char × List Char)} {X : List Char},
    partsOK b parts = true →
    (closedSeps (parts.map Prod.snd) = true ∨ headND X = true) →
    matchTail parts (partsRender parts ++ X) = some X := by
  intro parts
  induction parts with
  | nil => intro X _ _; rfl
  | cons p rest ih =>
    intro X hOK hcond
    obtain ⟨ds, sep⟩ := p
    obtain ⟨hds, hsepfree, hrestOK, hsep_ne, hsep_nil⟩ := partsOK_cons hOK
    obtain ⟨hds_ne, hds_dig⟩ := dsOK_elim hds
    have hds_ne' : ds.isEmpty = false := by
      cases ds with
      | nil => exact absurd rfl hds_ne
      | cons _ _ => rfl
    rw [partsRender_cons, List.append_assoc, List.append_assoc]
    cases rest with
    | nil =>
      rcases hsep_nil rfl with hsep0 | hsepok
      · -- bare trailing `\d+`
        subst hsep0
        have hND : headND X = true := by
          rcases hcond with hc | hc
          · simp [closedSeps] at hc
          · exact hc
        have hta := takeWhile_digits_append hds_dig (by simpa [partsRender] using hND)
        simp only [partsRender, List.foldr_nil, List.nil_append] at hta ⊢
        simp only [matchTail, hta.1, hta.2, hds_ne']
        simp [stripPre]
      · obtain ⟨⟨c0, sepTl, hsepshape, hc0⟩, _⟩ := sepOK_elim hsepok
        have hNDsep : headND (sep ++ (partsRender [] ++ X)) = true := by
          rw [hsepshape, List.cons_append, headND_cons, hc0]
          rfl
        have hta := takeWhile_digits_append hds_dig hNDsep
        simp only [matchTail, hta.1, hta.2, hds_ne']
        simp only [partsRender, List.foldr_nil, List.nil_append, stripPre_self_append]
        rfl
    | cons p2 rest2 =>
      have hsepok : sepOK b sep = true := hsep_ne (by simp)
      obtain ⟨⟨c0, sepTl, hsepshape, hc0⟩, _⟩ := sepOK_elim hsepok
      have hNDsep : headND (sep ++ (partsRender (p2 :: rest2) ++ X)) = true := by
        rw [hsepshape, List.cons_append, headND_cons, hc0]
        rfl
      have hta := takeWhile_digits_append hds_dig hNDsep
      simp only [matchTail, hta.1, hta.2, hds_ne', stripPre_self_append]
      apply ih hrestOK
      simpa [closedSeps] using hcond

/-- A rule matches at another rule's replacement text whenever the two
share literal and separators (e.g. the same pattern rendered with
different numbers). -/
theorem matchAt_repl {b : Char} {r r' : Rule} {X : List Char}
    (hg' : goodRule b r' = true)
    (hlit : r.lit = r'.lit) (hps : r.parts.map Prod.snd = r'.parts.map Prod.snd)
    (hX : sepsClosed r' = true ∨ headND X = true) :
    matchAt r (replOf r' ++ X) = some X := by
  unfold matchAt replOf
  rw [List.append_assoc, hlit, stripPre_self_append]
  show matchTail r.parts (partsRender r'.parts ++ X) = some X
  rw [matchTail_congr hps]
  exact matchTail_render_self (goodRule_b_not_digit hg') (goodRule_parts hg') hX

/-! ### Scanning lemmas -/

theorem pick_some_elim : ∀ {rs : List Rule} {s : List Char} {r : Rule} {t : List Char},
    pick rs s = some (r, t) → r ∈ rs ∧ matchAt r s = some t := by
  intro rs
  induction rs with
  | nil => intro s r t h; simp [pick] at h
  | cons q rs ih =>
    intro s r t h
    simp only [pick] at h
    cases hm : matchAt q s with
    | some u =>
      rw [hm] at h
      have h2 : (q, u) = (r, t) := Option.some.inj h
      have hq : q = r := congrArg Prod.fst h2
      have hu : u = t := congrArg Prod.snd h2
      rw [hu] at hm
      constructor
      · rw [← hq]; exact List.mem_cons_self _ _
      · rw [← hq]; exact hm
    | none =>
      rw [hm] at h
      obtain ⟨h1, h2⟩ := ih h
      exact ⟨by simp [h1], h2⟩

theorem pick_none_iff {rs : List Rule} {s : List Char} :
    pick rs s = none ↔ ∀ r ∈ rs, matchAt r s = none := by
  induction rs with
  | nil => simp [pick]
  | cons q rs ih =>
    simp only [pick]
    cases hm : matchAt q s with
    | some u => simp [hm]
    | none => simp [hm, ih]

theorem pick_cons_some {r : Rule} {rs : List Rule} {s t : List Char}
    (h : matchAt r s = some t) : pick (r :: rs) s = some (r, t) := by
  simp [pick, h]

theorem pick_cons_none {r : Rule} {rs : List Rule} {s : List Char}
    (h : matchAt r s = none) : pick (r :: rs) s = pick rs s := by
  simp [pick, h]

/-- Characters distinct from every rule's leading literal character are
copied verbatim by the scan. -/
theorem subAll_skip {b : Char} {rs : List Rule}
    (hb : ∀ r ∈ rs, ∃ lt, r.lit = b :: lt) :
    ∀ {u v : List Char}, (∀ c ∈ u, c ≠ b) → subAll rs (u ++ v) = u ++ subAll rs v := by
  intro u
  induction u with
  | nil => intro v _; rfl
  | cons c u ih =>
    intro v hu
    have hnone : ∀ r ∈ rs, matchAt r (c :: (u ++ v)) = none := by
      intro r hr
      obtain ⟨lt, hlit⟩ := hb r hr
      exact matchAt_head_ne hlit (hu c (by simp))
    rw [List.cons_append, subAll_cons_none (pick_none_iff.2 hnone)]
    rw [ih (fun x hx => hu x (by simp [hx])), List.cons_append]

theorem headND_subAll {b : Char} {rs : List Rule}
    (hb : ∀ r ∈ rs, ∃ lt, r.lit = b :: lt) (hbd : b.isDigit = false)
    {s : List Char} (h : headND s = true) : headND (subAll rs s) = true := by
  cases s with
  | nil => rw [subAll_nil]; exact h
  | cons c cs =>
    cases hp : pick rs (c :: cs) with
    | some rt =>
      obtain ⟨r, t⟩ := rt
      rw [subAll_cons_some hp]
      obtain ⟨hr, _⟩ := pick_some_elim hp
      obtain ⟨lt, hlit⟩ := hb r hr
      rw [replOf, hlit, List.cons_append, List.cons_append, headND_cons, hbd]
      rfl
    | none =>
      rw [subAll_cons_none hp]
      exact h

/-- If a pattern occurs nowhere in the document, the substitution is the
identity. -/
theorem subAll_no_match {r : Rule} : ∀ {s : List Char},
    hasMatch r s = false → subAll [r] s = s := by
  intro s
  induction s with
  | nil => intro _; rfl
  | cons c cs ih =>
    intro h
    simp only [hasMatch, Bool.or_eq_false_iff] at h
    obtain ⟨h1, h2⟩ := h
    have hm : matchAt r (c :: cs) = none := by
      cases hm : matchAt r (c :: cs) with
      | none => rfl
      | some t => rw [hm] at h1; simp at h1
    rw [subAll_cons_none (pick_none_iff.2 (by intro q hq; simp at hq; rw [hq]; exact hm))]
    rw [ih h2]

theorem hasMatch_congr {r r' : Rule} (hlit : r.lit = r'.lit)
    (hps : r.parts.map Prod.snd = r'.parts.map Prod.snd) :
    ∀ s : List Char, hasMatch r s = hasMatch r' s := by
  intro s
  induction s with
  | nil => simp [hasMatch, matchAt_congr hlit hps]
  | cons c cs ih => simp [hasMatch, matchAt_congr hlit hps, ih]

theorem hasSub_append (n x y : List Char) : hasSub n (x ++ (n ++ y)) = true := by
  induction x with
  | nil =>
    simp only [List.nil_append]
    rcases hn : n ++ y with _ | ⟨c, cs⟩
    · have : n = [] := by
        rcases List.append_eq_nil.1 hn with ⟨h1, _⟩
        exact h1
      subst this
      rfl
    · have hs : startsW n (c :: cs) = true := by
        rw [← hn]
        unfold startsW
        rw [stripPre_self_append]
        rfl
      simp [hasSub, hs]
  | cons c x ih =>
    simp [hasSub, ih]

theorem hasMatch_append {r : Rule} {s' : List Char} (u : List Char)
    (h : (matchAt r s').isSome = true) : hasMatch r (u ++ s') = true := by
  induction u with
  | nil =>
    cases s' with
    | nil => simpa [hasMatch] using h
    | cons c cs => simp [hasMatch, h]
  | cons c u ih =>
    simp [hasMatch, ih]

/-! ### Simulation: matching is unaffected by inner substitutions

`subAll rs` only changes text inside replaced spans, each of which starts
with the barrier character `b` and is otherwise `b`-free; scanning with a
`b`-free expectation therefore proceeds in lock-step on `y` and on
`subAll rs y`. -/

theorem matchAt_some_head {r : Rule} {b c : Char} {lt cs t : List Char}
    (hlit : r.lit = b :: lt) (hm : matchAt r (c :: cs) = some t) : c = b := by
  unfold matchAt at hm
  cases hsp : stripPre r.lit (c :: cs) with
  | none => rw [hsp] at hm; simp at hm
  | some s1 =>
    have h := stripPre_eq_append hsp
    rw [hlit] at h
    exact (List.cons.inj h).1

theorem subAll_rel_step {b : Char} {rs : List Rule}
    (hb : ∀ r ∈ rs, ∃ lt, r.lit = b :: lt) (y : List Char) :
    (y = [] ∧ subAll rs y = []) ∨
      ∃ d yt y't, y = d :: yt ∧ subAll rs y = d :: y't ∧
        (y't = subAll rs yt ∨ d = b) := by
  cases y with
  | nil => exact Or.inl ⟨rfl, subAll_nil rs⟩
  | cons c cs =>
    refine Or.inr ?_
    cases hp : pick rs (c :: cs) with
    | none => exact ⟨c, cs, subAll rs cs, rfl, subAll_cons_none hp, Or.inl rfl⟩
    | some rt =>
      obtain ⟨r, t⟩ := rt
      obtain ⟨hr, hm⟩ := pick_some_elim hp
      obtain ⟨lt, hlit⟩ := hb r hr
      have hc : c = b := matchAt_some_head hlit hm
      subst hc
      refine ⟨c, cs, lt ++ (partsRender r.parts ++ subAll rs t), rfl, ?_, Or.inr rfl⟩
      rw [subAll_cons_some hp, replOf, hlit]
      simp [List.append_assoc]

theorem stripPre_sim {b : Char} {rs : List Rule}
    (hb : ∀ r ∈ rs, ∃ lt, r.lit = b :: lt) :
    ∀ {p y : List Char}, (∀ c ∈ p, c ≠ b) →
    (stripPre p y = none ∧ stripPre p (subAll rs y) = none) ∨
    (∃ u, stripPre p y = some u ∧ stripPre p (subAll rs y) = some (subAll rs u)) := by
  intro p
  induction p with
  | nil => intro y _; exact Or.inr ⟨y, rfl, rfl⟩
  | cons q ps ih =>
    intro y hp
    rcases subAll_rel_step hb y with ⟨hy, hy'⟩ | ⟨d, yt, y't, hy, hy', hrel⟩
    · subst hy
      rw [hy']
      exact Or.inl ⟨rfl, rfl⟩
    · rw [hy', hy]
      by_cases hqd : q == d
      · have hdb : d ≠ b := by
          rw [← eq_of_beq hqd]
          exact hp q (by simp)
        rcases hrel with hrel | hrel
        · simp only [stripPre, hqd, if_true]
          rw [hrel]
          exact ih (fun x hx => hp x (by simp [hx]))
        · exact absurd hrel hdb
      · simp only [stripPre, hqd, if_false, Bool.false_eq_true]
        exact Or.inl ⟨by trivial, by trivial⟩

theorem span_sim {b : Char} {rs : List Rule}
    (hb : ∀ r ∈ rs, ∃ lt, r.lit = b :: lt) (hbd : b.isDigit = false) :
    ∀ y : List Char,
      (subAll rs y).takeWhile Char.isDigit = y.takeWhile Char.isDigit ∧
      (subAll rs y).dropWhile Char.isDigit = subAll rs (y.dropWhile Char.isDigit) := by
  intro y
  induction y with
  | nil => simp [subAll_nil]
  | cons c cs ih =>
    cases hp : pick rs (c :: cs) with
    | some rt =>
      obtain ⟨r, t⟩ := rt
      obtain ⟨hr, hm⟩ := pick_some_elim hp
      obtain ⟨lt, hlit⟩ := hb r hr
      have hc : c = b := matchAt_some_head hlit hm
      subst hc
      have hout : subAll rs (c :: cs) = replOf r ++ subAll rs t := subAll_cons_some hp
      have hhead : ∃ z, subAll rs (c :: cs) = c :: z := by
        rw [hout, replOf, hlit]
        exact ⟨lt ++ (partsRender r.parts ++ subAll rs t), by simp [List.append_assoc]⟩
      obtain ⟨z, hz⟩ := hhead
      rw [hz]
      rw [List.takeWhile_cons_of_neg (by simp [hbd]), List.dropWhile_cons_of_neg (by simp [hbd]),
        List.takeWhile_cons_of_neg (by simp [hbd]), List.dropWhile_cons_of_neg (by simp [hbd])]
      exact ⟨rfl, hz.symm⟩
    | none =>
      have hout : subAll rs (c :: cs) = c :: subAll rs cs := subAll_cons_none hp
      rw [hout]
      by_cases hcd : c.isDigit
      · rw [List.takeWhile_cons_of_pos (by simp [hcd]), List.takeWhile_cons_of_pos (by simp [hcd]),
          List.dropWhile_cons_of_pos (by simp [hcd]), List.dropWhile_cons_of_pos (by simp [hcd])]
        exact ⟨by rw [ih.1], ih.2⟩
      · rw [List.takeWhile_cons_of_neg (by simp [hcd]), List.takeWhile_cons_of_neg (by simp [hcd]),
          List.dropWhile_cons_of_neg (by simp [hcd]), List.dropWhile_cons_of_neg (by simp [hcd])]
        exact ⟨rfl, hout.symm⟩

theorem matchTail_sim {b : Char} {rs : List Rule}
    (hb : ∀ r ∈ rs, ∃ lt, r.lit = b :: lt) (hbd : b.isDigit = false) :
    ∀ {parts : List (List Char × List Char)} {y : List Char}, partsOK b parts = true →
    (matchTail parts y = none ∧ matchTail parts (subAll rs y) = none) ∨
    (∃ t, matchTail parts y = some t ∧ matchTail parts (subAll rs y) = some (subAll rs t)) := by
  intro parts
  induction parts with
  | nil => intro y _; exact Or.inr ⟨y, rfl, rfl⟩
  | cons p rest ih =>
    intro y hOK
    obtain ⟨ds, sep⟩ := p
    obtain ⟨_, hsepfree, hrestOK, _, _⟩ := partsOK_cons hOK
    have hspan := span_sim hb hbd y
    simp only [matchTail, hspan.1, hspan.2]
    by_cases he : (y.takeWhile Char.isDigit).isEmpty
    · rw [if_pos he, if_pos he]
      exact Or.inl ⟨rfl, rfl⟩
    · rw [if_neg he, if_neg he]
      rcases stripPre_sim hb (y := y.dropWhile Char.isDigit) hsepfree with
        ⟨hn1, hn2⟩ | ⟨u, hs1, hs2⟩
      · rw [hn1, hn2]
        exact Or.inl ⟨rfl, rfl⟩
      · rw [hs1, hs2]
        exact ih hrestOK

theorem matchAt_sim {b : Char} {rs : List Rule} {r : Rule}
    (hb : ∀ q ∈ rs, ∃ lt, q.lit = b :: lt) (hbd : b.isDigit = false)
    (hg : goodRule b r = true) (c : Char) (y : List Char) :
    (matchAt r (c :: y) = none ∧ matchAt r (c :: subAll rs y) = none) ∨
    (∃ t, matchAt r (c :: y) = some t ∧
      matchAt r (c :: subAll rs y) = some (subAll rs t)) := by
  obtain ⟨lt, hlit, hltfree⟩ := goodRule_lit hg
  by_cases hcb : c = b
  · subst hcb
    unfold matchAt
    rw [hlit]
    simp only [stripPre, beq_self_eq_true, if_true]
    rcases stripPre_sim hb (y := y) hltfree with ⟨hn1, hn2⟩ | ⟨u, hs1, hs2⟩
    · rw [hn1, hn2]
      exact Or.inl ⟨rfl, rfl⟩
    · rw [hs1, hs2]
      exact matchTail_sim hb hbd (goodRule_parts hg)
  · exact Or.inl ⟨matchAt_head_ne hlit hcb, matchAt_head_ne hlit hcb⟩

/-! ### Composing substitutions -/

theorem matchAt_div_none {q r : Rule} {s t : List Char}
    (hdiv : divChars q.lit r.lit = true) (hm : matchAt r s = some t) :
    matchAt q s = none := by
  cases hq : matchAt q s with
  | none => rfl
  | some u =>
    exfalso
    unfold matchAt at hm hq
    cases hspr : stripPre r.lit s with
    | none => rw [hspr] at hm; simp at hm
    | some s1 =>
      cases hspq : stripPre q.lit s with
      | none => rw [hspq] at hq; simp at hq
      | some s2 => exact stripPre_div hdiv hspq hspr

/-- The scan steps over a replacement produced by a rule sharing literal
and separators with `r` (matching it afresh and reproducing it). -/
theorem subAll_repl_head {b : Char} {r r' : Rule} {X : List Char}
    (hg' : goodRule b r' = true)
    (hlit : r.lit = r'.lit) (hps : r.parts.map Prod.snd = r'.parts.map Prod.snd)
    (hX : sepsClosed r' = true ∨ headND X = true) :
    subAll [r] (replOf r' ++ X) = replOf r ++ subAll [r] X := by
  have hm : matchAt r (replOf r' ++ X) = some X := matchAt_repl hg' hlit hps hX
  obtain ⟨lt', hlit', _⟩ := goodRule_lit hg'
  have hshape : replOf r' ++ X = b :: (lt' ++ (partsRender r'.parts ++ X)) := by
    rw [replOf, hlit']
    simp [List.append_assoc]
  rw [hshape] at hm
  calc subAll [r] (replOf r' ++ X)
      = subAll [r] (b :: (lt' ++ (partsRender r'.parts ++ X))) := by rw [hshape]
    _ = replOf r ++ subAll [r] X := subAll_cons_some (pick_cons_some hm)

/-- The scan passes verbatim over a replacement produced by a rule whose
literal diverges from `r`'s. -/
theorem subAll_pass_repl {b : Char} {r q : Rule} {X : List Char}
    (hgq : goodRule b q = true) (hgr : goodRule b r = true)
    (hdiv : divChars r.lit q.lit = true) :
    subAll [r] (replOf q ++ X) = replOf q ++ subAll [r] X := by
  obtain ⟨ltq, hlitq, hlqfree⟩ := goodRule_lit hgq
  obtain ⟨ltr, hlitr, _⟩ := goodRule_lit hgr
  have hbr : ∀ r0 ∈ [r], ∃ lt, r0.lit = b :: lt := by
    intro r0 hr0
    simp only [List.mem_singleton] at hr0
    subst hr0
    exact ⟨ltr, hlitr⟩
  have hmb : matchAt r (replOf q ++ X) = none := by
    unfold matchAt
    rw [replOf, List.append_assoc, stripPre_div_append _ hdiv]
  have hshape : replOf q ++ X = b :: (ltq ++ (partsRender q.parts ++ X)) := by
    rw [replOf, hlitq]
    simp [List.append_assoc]
  have hshape2 : ∀ Y : List Char, replOf q ++ Y = b :: (ltq ++ (partsRender q.parts ++ Y)) := by
    intro Y
    rw [replOf, hlitq]
    simp [List.append_assoc]
  calc subAll [r] (replOf q ++ X)
      = subAll [r] (b :: (ltq ++ (partsRender q.parts ++ X))) := by rw [hshape]
    _ = b :: subAll [r] (ltq ++ (partsRender q.parts ++ X)) := by
        apply subAll_cons_none
        apply pick_none_iff.2
        intro r0 hr0
        simp only [List.mem_singleton] at hr0
        subst hr0
        rw [← hshape]
        exact hmb
    _ = b :: (ltq ++ subAll [r] (partsRender q.parts ++ X)) := by
        rw [subAll_skip hbr hlqfree]
    _ = b :: (ltq ++ (partsRender q.parts ++ subAll [r] X)) := by
        rw [subAll_skip hbr (partsRender_bfree (goodRule_b_not_digit hgq) (goodRule_parts hgq))]
    _ = replOf q ++ subAll [r] X := (hshape2 _).symm

/-- Core composition law: running one more well-formed, pairwise
divergent rule after `subAll rs` is the same as scanning once with the
rule added in front. -/
theorem subAll_comp {b : Char} {r : Rule} {rs : List Rule}
    (hg : goodRule b r = true)
    (hgs : ∀ q ∈ rs, goodRule b q = true)
    (hdiv : ∀ q ∈ rs, r = q ∨ divChars r.lit q.lit = true) :
    ∀ s, subAll [r] (subAll rs s) = subAll (r :: rs) s := by
  have hb : ∀ q ∈ rs, ∃ lt, q.lit = b :: lt := by
    intro q hq
    obtain ⟨lt, h1, _⟩ := goodRule_lit (hgs q hq)
    exact ⟨lt, h1⟩
  have hbd : b.isDigit = false := goodRule_b_not_digit hg
  suffices h : ∀ n (s : List Char), s.length ≤ n →
      subAll [r] (subAll rs s) = subAll (r :: rs) s by
    intro s
    exact h s.length s le_rfl
  intro n
  induction n with
  | zero =>
    intro s hs
    have : s = [] := List.eq_nil_of_length_eq_zero (Nat.le_zero.1 hs)
    subst this
    simp [subAll_nil]
  | succ n ihn =>
    intro s hs
    cases s with
    | nil => simp [subAll_nil]
    | cons c cs =>
      simp only [List.length_cons] at hs
      cases hp : pick rs (c :: cs) with
      | some rt =>
        obtain ⟨q, t⟩ := rt
        obtain ⟨hqmem, hqm⟩ := pick_some_elim hp
        have hlen : t.length < cs.length + 1 := by simpa using pick_lt hp
        have hout : subAll rs (c :: cs) = replOf q ++ subAll rs t := subAll_cons_some hp
        rcases hdiv q hqmem with hrq | hdq
        · subst hrq
          have hcond : sepsClosed r = true ∨ headND (subAll rs t) = true := by
            by_cases hclosed : sepsClosed r = true
            · exact Or.inl hclosed
            · obtain ⟨m, _, _, hhead, _⟩ := matchAt_main hg hqm
              exact Or.inr (headND_subAll hb hbd (hhead (by simpa using hclosed)))
          rw [hout, subAll_repl_head hg rfl rfl hcond, ihn t (by omega),
            subAll_cons_some (pick_cons_some hqm)]
        · have hmr : matchAt r (c :: cs) = none := matchAt_div_none hdq hqm
          have hpick2 : pick (r :: rs) (c :: cs) = some (q, t) := by
            rw [pick_cons_none hmr, hp]
          rw [hout, subAll_pass_repl (hgs q hqmem) hg hdq, ihn t (by omega),
            subAll_cons_some hpick2]
      | none =>
        have hout : subAll rs (c :: cs) = c :: subAll rs cs := subAll_cons_none hp
        rw [hout]
        rcases matchAt_sim hb hbd hg c cs with ⟨hn1, hn2⟩ | ⟨t, hs1, hs2⟩
        · have hpick1 : pick [r] (c :: subAll rs cs) = none := by
            apply pick_none_iff.2
            intro r0 hr0
            simp only [List.mem_singleton] at hr0
            subst hr0
            exact hn2
          have hpick2 : pick (r :: rs) (c :: cs) = none := by
            rw [pick_cons_none hn1, hp]
          rw [subAll_cons_none hpick1, subAll_cons_none hpick2, ihn cs (by omega)]
        · have hlen : t.length < cs.length + 1 := by simpa using matchAt_lt hs1
          rw [subAll_cons_some (pick_cons_some hs2), ihn t (by omega),
            subAll_cons_some (pick_cons_some hs1)]

theorem pick_of_unique : ∀ {rs : List Rule} {s t : List Char} {r : Rule},
    r ∈ rs → matchAt r s = some t →
    (∀ q ∈ rs, q ≠ r → matchAt q s = none) → pick rs s = some (r, t) := by
  intro rs
  induction rs with
  | nil => intro s t r h; simp at h
  | cons q rs ih =>
    intro s t r hmem hm hothers
    by_cases hqr : q = r
    · subst hqr
      exact pick_cons_some hm
    · rw [pick_cons_none (hothers q (by simp) hqr)]
      have hmem2 : r ∈ rs := by
        rcases List.mem_cons.1 hmem with h1 | h1
        · exact absurd h1.symm hqr
        · exact h1
      exact ih hmem2 hm (fun p hp hne => hothers p (by simp [hp]) hne)

/-- Re-running a rule already in the scanned set changes nothing. -/
theorem subAll_dup {r : Rule} {rs : List Rule}
    (hmem : r ∈ rs)
    (hdiv : ∀ q ∈ rs, q = r ∨ divChars q.lit r.lit = true) :
    ∀ s, subAll (r :: rs) s = subAll rs s := by
  suffices h : ∀ n (s : List Char), s.length ≤ n →
      subAll (r :: rs) s = subAll rs s by
    intro s
    exact h s.length s le_rfl
  intro n
  induction n with
  | zero =>
    intro s hs
    have : s = [] := List.eq_nil_of_length_eq_zero (Nat.le_zero.1 hs)
    subst this
    simp [subAll_nil]
  | succ n ihn =>
    intro s hs
    cases s with
    | nil => simp [subAll_nil]
    | cons c cs =>
      simp only [List.length_cons] at hs
      cases hm : matchAt r (c :: cs) with
      | some t =>
        have hothers : ∀ q ∈ rs, q ≠ r → matchAt q (c :: cs) = none := by
          intro q hq hne
          rcases hdiv q hq with h1 | h1
          · exact absurd h1 hne
          · exact matchAt_div_none h1 hm
        have hpicks : pick rs (c :: cs) = some (r, t) := pick_of_unique hmem hm hothers
        have hlen : t.length < cs.length + 1 := by simpa using matchAt_lt hm
        rw [subAll_cons_some (pick_cons_some hm), subAll_cons_some hpicks, ihn t (by omega)]
      | none =>
        cases hp : pick rs (c :: cs) with
        | some rt =>
          obtain ⟨q, t⟩ := rt
          have hlen : t.length < cs.length + 1 := by simpa using pick_lt hp
          have hpick2 : pick (r :: rs) (c :: cs) = some (q, t) := by
            rw [pick_cons_none hm, hp]
          rw [subAll_cons_some hpick2, subAll_cons_some hp, ihn t (by omega)]
        | none =>
          have hpick2 : pick (r :: rs) (c :: cs) = none := by
            rw [pick_cons_none hm, hp]
          rw [subAll_cons_none hpick2, subAll_cons_none hp, ihn cs (by omega)]

theorem pick_perm {rs rs' : List Rule} (hperm : rs.Perm rs')
    (hdiv : ∀ q ∈ rs, ∀ p ∈ rs, q ≠ p → divChars q.lit p.lit = true) :
    ∀ s, pick rs s = pick rs' s := by
  intro s
  cases hp : pick rs s with
  | some rt =>
    obtain ⟨q, t⟩ := rt
    obtain ⟨hqmem, hqm⟩ := pick_some_elim hp
    have hothers : ∀ p ∈ rs', p ≠ q → matchAt p s = none := by
      intro p hpmem hne
      have hpmem2 : p ∈ rs := hperm.symm.subset hpmem
      exact matchAt_div_none (hdiv p hpmem2 q hqmem hne) hqm
    exact (pick_of_unique (hperm.subset hqmem) hqm hothers).symm
  | none =>
    have h1 := pick_none_iff.1 hp
    symm
    apply pick_none_iff.2
    intro q hq
    exact h1 q (hperm.symm.subset hq)

theorem subAll_perm {rs rs' : List Rule} (hperm : rs.Perm rs')
    (hdiv : ∀ q ∈ rs, ∀ p ∈ rs, q ≠ p → divChars q.lit p.lit = true) :
    ∀ s, subAll rs s = subAll rs' s := by
  suffices h : ∀ n (s : List Char), s.length ≤ n → subAll rs s = subAll rs' s by
    intro s
    exact h s.length s le_rfl
  intro n
  induction n with
  | zero =>
    intro s hs
    have : s = [] := List.eq_nil_of_length_eq_zero (Nat.le_zero.1 hs)
    subst this
    simp [subAll_nil]
  | succ n ihn =>
    intro s hs
    cases s with
    | nil => simp [subAll_nil]
    | cons c cs =>
      simp only [List.length_cons] at hs
      have hpeq := pick_perm hperm hdiv (c :: cs)
      cases hp : pick rs (c :: cs) with
      | some rt =>
        obtain ⟨q, t⟩ := rt
        have hlen : t.length < cs.length + 1 := by simpa using pick_lt hp
        rw [subAll_cons_some hp, subAll_cons_some (by rw [← hpeq]; exact hp),
          ihn t (by omega)]
      | none =>
        rw [subAll_cons_none hp, subAll_cons_none (by rw [← hpeq]; exact hp),
          ihn cs (by omega)]

/-! ### The concrete rules are well-formed and pairwise divergent -/

theorem intChars_ofNat (n : Nat) : intChars (n : Int) = natDigits n := by
  unfold intChars
  rw [if_neg (Int.not_lt.2 (Int.natCast_nonneg n))]
  congr 1

theorem dsOK_natDigits (n : Nat) : dsOK (natDigits n) = true := by
  rcases h : natDigits n with _ | ⟨c, cs⟩
  · exact absurd h (natDigits_ne_nil n)
  · simp only [dsOK, List.isEmpty_cons, Bool.not_false, Bool.true_and, List.all_eq_true]
    intro x hx
    have hx2 : x ∈ natDigits n := by rw [h]; exact hx
    exact natDigits_all_digit hx2

theorem goodRule_major (n : Nat) : goodRule '#' (majorRule (n : Int)) = true := by
  simp only [goodRule, majorRule, intChars_ofNat, partsOK, Bool.and_eq_true]
  refine ⟨⟨by decide, by decide⟩, ?_⟩
  simp [dsOK_natDigits]

theorem goodRule_minor (n : Nat) : goodRule '#' (minorRule (n : Int)) = true := by
  simp only [goodRule, minorRule, intChars_ofNat, partsOK, Bool.and_eq_true]
  refine ⟨⟨by decide, by decide⟩, ?_⟩
  simp [dsOK_natDigits]

theorem goodRule_patch (n : Nat) : goodRule '#' (patchRule (n : Int)) = true := by
  simp only [goodRule, patchRule, intChars_ofNat, partsOK, Bool.and_eq_true]
  refine ⟨⟨by decide, by decide⟩, ?_⟩
  simp [dsOK_natDigits]

theorem goodRule_str (a b c : Nat) :
    goodRule '#' (strRule (a : Int) (b : Int) (c : Int)) = true := by
  simp only [goodRule, strRule, intChars_ofNat, partsOK, Bool.and_eq_true]
  refine ⟨⟨by decide, by decide⟩, ?_, ?_, ?_⟩ <;>
    simp [dsOK_natDigits, sepOK, toL]

theorem goodRule_strFull (a b c : Nat) :
    goodRule '#' (strFullRule (a : Int) (b : Int) (c : Int)) = true := by
  simp only [goodRule, strFullRule, intChars_ofNat, partsOK, Bool.and_eq_true]
  refine ⟨⟨by decide, by decide⟩, ?_, ?_, ?_⟩ <;>
    simp [dsOK_natDigits, sepOK, toL]

theorem goodRule_cmake (a b c : Nat) :
    goodRule 'p' (cmakeRule (a : Int) (b : Int) (c : Int)) = true := by
  simp only [goodRule, cmakeRule, intChars_ofNat, partsOK, Bool.and_eq_true]
  refine ⟨⟨by decide, by decide⟩, ?_, ?_, ?_⟩ <;>
    simp [dsOK_natDigits, sepOK, toL]


theorem majorRule_lit (z : Int) :
    (majorRule z).lit = toL "#define PEHINT_VERSION_MAJOR " := rfl

theorem minorRule_lit (z : Int) :
    (minorRule z).lit = toL "#define PEHINT_VERSION_MINOR " := rfl

theorem patchRule_lit (z : Int) :
    (patchRule z).lit = toL "#define PEHINT_VERSION_PATCH " := rfl

theorem strRule_lit (a b c : Int) :
    (strRule a b c).lit = toL "#define PEHINT_VERSION_STRING \"" := rfl

theorem strFullRule_lit (a b c : Int) :
    (strFullRule a b c).lit = toL "#define PEHINT_VERSION_STRING_FULL \"v" := rfl

theorem cmakeRule_lit (a b c : Int) :
    (cmakeRule a b c).lit = toL "project(PEHint VERSION " := rfl

/-- The five header rules, listed so that `subAll hdrRules` equals the
script's five consecutive `re.sub` calls. -/
def hdrRules (ma mi pa : Int) : List Rule :=
  [strFullRule ma mi pa, strRule ma mi pa, patchRule pa, minorRule mi, majorRule ma]

theorem goods_hdr (a b c : Nat) :
    ∀ q ∈ hdrRules (a : Int) (b : Int) (c : Int), goodRule '#' q = true := by
  intro q hq
  simp only [hdrRules, List.mem_cons, List.not_mem_nil, or_false] at hq
  rcases hq with rfl | rfl | rfl | rfl | rfl
  · exact goodRule_strFull a b c
  · exact goodRule_str a b c
  · exact goodRule_patch c
  · exact goodRule_minor b
  · exact goodRule_major a

theorem divs_hdr (a b c : Nat) :
    ∀ q ∈ hdrRules (a : Int) (b : Int) (c : Int),
    ∀ p ∈ hdrRules (a : Int) (b : Int) (c : Int),
    q ≠ p → divChars q.lit p.lit = true := by
  intro q hq p hp hne
  simp only [hdrRules, List.mem_cons, List.not_mem_nil, or_false] at hq hp
  rcases hq with rfl | rfl | rfl | rfl | rfl <;>
    rcases hp with rfl | rfl | rfl | rfl | rfl <;>
    first
      | exact absurd rfl hne
      | (simp only [majorRule_lit, minorRule_lit, patchRule_lit, strRule_lit,
          strFullRule_lit]
         decide)

theorem headerTransform_subAll (a b c : Nat) (s : List Char) :
    headerTransform (a : Int) (b : Int) (c : Int) s
      = subAll (hdrRules (a : Int) (b : Int) (c : Int)) s := by
  have e1 := @subAll_comp '#' _ [majorRule (a : Int)] (goodRule_minor b)
    (by
      intro q hq
      simp only [List.mem_singleton] at hq
      subst hq
      exact goodRule_major a)
    (by
      intro q hq
      simp only [List.mem_singleton] at hq
      subst hq
      refine Or.inr (by
        simp only [majorRule_lit, minorRule_lit, patchRule_lit, strRule_lit,
          strFullRule_lit]
        decide))
  have e2 := @subAll_comp '#' _
    [minorRule (b : Int), majorRule (a : Int)] (goodRule_patch c)
    (by
      intro q hq
      simp only [List.mem_cons, List.not_mem_nil, or_false] at hq
      rcases hq with rfl | rfl
      · exact goodRule_minor b
      · exact goodRule_major a)
    (by
      intro q hq
      simp only [List.mem_cons, List.not_mem_nil, or_false] at hq
      rcases hq with rfl | rfl <;>
        refine Or.inr (by
          simp only [majorRule_lit, minorRule_lit, patchRule_lit, strRule_lit,
            strFullRule_lit]
          decide))
  have e3 := @subAll_comp '#' _
    [patchRule (c : Int), minorRule (b : Int), majorRule (a : Int)]
    (goodRule_str a b c)
    (by
      intro q hq
      simp only [List.mem_cons, List.not_mem_nil, or_false] at hq
      rcases hq with rfl | rfl | rfl
      · exact goodRule_patch c
      · exact goodRule_minor b
      · exact goodRule_major a)
    (by
      intro q hq
      simp only [List.mem_cons, List.not_mem_nil, or_false] at hq
      rcases hq with rfl | rfl | rfl <;>
        refine Or.inr (by
          simp only [majorRule_lit, minorRule_lit, patchRule_lit, strRule_lit,
            strFullRule_lit]
          decide))
  have e4 := @subAll_comp '#' _
    [strRule (a : Int) (b : Int) (c : Int), patchRule (c : Int),
      minorRule (b : Int), majorRule (a : Int)]
    (goodRule_strFull a b c)
    (by
      intro q hq
      simp only [List.mem_cons, List.not_mem_nil, or_false] at hq
      rcases hq with rfl | rfl | rfl | rfl
      · exact goodRule_str a b c
      · exact goodRule_patch c
      · exact goodRule_minor b
      · exact goodRule_major a)
    (by
      intro q hq
      simp only [List.mem_cons, List.not_mem_nil, or_false] at hq
      rcases hq with rfl | rfl | rfl | rfl <;>
        refine Or.inr (by
          simp only [majorRule_lit, minorRule_lit, patchRule_lit, strRule_lit,
            strFullRule_lit]
          decide))
  unfold headerTransform hdrRules
  rw [e1 s, e2 s, e3 s, e4 s]

/-- Re-running one of the header rules after the full scan is a no-op. -/
theorem hdr_fix (a b c : Nat) (r : Rule)
    (hmem : r ∈ hdrRules (a : Int) (b : Int) (c : Int)) (s : List Char) :
    subAll [r] (subAll (hdrRules (a : Int) (b : Int) (c : Int)) s)
      = subAll (hdrRules (a : Int) (b : Int) (c : Int)) s := by
  rw [subAll_comp (goods_hdr a b c r hmem) (goods_hdr a b c)
    (fun q hq => by
      by_cases h : r = q
      · exact Or.inl h
      · exact Or.inr (divs_hdr a b c r hmem q hq h)),
    subAll_dup hmem
    (fun q hq => by
      by_cases h : q = r
      · exact Or.inl h
      · exact Or.inr (divs_hdr a b c q hq r hmem h))]

theorem subAll_no_rules : ∀ s : List Char, subAll ([] : List Rule) s = s := by
  intro s
  induction s with
  | nil => rfl
  | cons c cs ih =>
    rw [@subAll_cons_none [] c cs (by rfl), ih]

/-- Applying single-pattern substitutions one after another, in the
order given by the list. -/
def applyRules (rules : List Rule) (s : List Char) : List Char :=
  rules.foldl (fun acc r => subAll [r] acc) s

theorem applyRules_subAll (a b c : Nat) :
    ∀ (ord : List Rule), (∀ q ∈ ord, q ∈ hdrRules (a : Int) (b : Int) (c : Int)) →
    ∀ s, applyRules ord s = subAll ord.reverse s := by
  intro ord
  induction ord using List.reverseRecOn with
  | nil =>
    intro _ s
    rw [List.reverse_nil, subAll_no_rules]
    rfl
  | append_singleton init r ih =>
    intro hmem s
    have h1 : applyRules (init ++ [r]) s = subAll [r] (applyRules init s) := by
      unfold applyRules
      rw [List.foldl_append]
      rfl
    have hrmem : r ∈ hdrRules (a : Int) (b : Int) (c : Int) := hmem r (by simp)
    have hinit : ∀ q ∈ init, q ∈ hdrRules (a : Int) (b : Int) (c : Int) :=
      fun q hq => hmem q (by simp [hq])
    rw [h1, ih hinit s]
    have hcomp := @subAll_comp '#' _ init.reverse
      (goods_hdr a b c r hrmem)
      (fun q hq => goods_hdr a b c q (hinit q (List.mem_reverse.1 hq)))
      (fun q hq => by
        by_cases h : r = q
        · exact Or.inl h
        · exact Or.inr (divs_hdr a b c r hrmem q (hinit q (List.mem_reverse.1 hq)) h))
    rw [hcomp s]
    have hrev : (init ++ [r]).reverse = r :: init.reverse := by simp
    rw [hrev]

/-- Skipping a barrier-free block, then rewriting one pattern instance. -/
theorem subAll_sandwich {b : Char} {r r' : Rule} {u x : List Char}
    (hg : goodRule b r = true) (hg' : goodRule b r' = true)
    (hlit : r.lit = r'.lit) (hps : r.parts.map Prod.snd = r'.parts.map Prod.snd)
    (hu : ∀ c ∈ u, c ≠ b) (hx : sepsClosed r' = true ∨ headND x = true) :
    subAll [r] (u ++ (replOf r' ++ x)) = u ++ (replOf r ++ subAll [r] x) := by
  obtain ⟨ltr, hlitr, _⟩ := goodRule_lit hg
  rw [subAll_skip (by
    intro r0 hr0
    simp only [List.mem_singleton] at hr0
    subst hr0
    exact ⟨ltr, hlitr⟩) hu]
  rw [subAll_repl_head hg' hlit hps hx]

/-! ### Facts about the cmake component -/

theorem cmakeRule_parts (a b c : Int) :
    (cmakeRule a b c).parts
      = [(intChars a, toL "."), (intChars b, toL "."), (intChars c, [])] := rfl

theorem sepsClosed_cmake (a b c : Int) : sepsClosed (cmakeRule a b c) = false := rfl

theorem sepsClosed_major (z : Int) : sepsClosed (majorRule z) = false := rfl

theorem replOf_cmake (a b c : Int) :
    replOf (cmakeRule a b c) = toL "project(PEHint " ++ cmakeNeedle a b c := by
  have hsplit : toL "project(PEHint VERSION "
      = toL "project(PEHint " ++ toL "VERSION " := by decide
  have hdot : toL "." = ['.'] := by decide
  have hnil : partsRender [] = [] := rfl
  simp only [replOf, cmakeRule, cmakeNeedle, partsRender_cons, hnil, hsplit, hdot,
    List.append_nil, List.append_assoc, List.singleton_append, List.nil_append,
    List.cons_append]

theorem hasSub_needle_of_clause (a b c : Int) (x y : List Char) :
    hasSub (cmakeNeedle a b c) (x ++ (replOf (cmakeRule a b c) ++ y)) = true := by
  rw [replOf_cmake]
  have heq : x ++ ((toL "project(PEHint " ++ cmakeNeedle a b c) ++ y)
      = (x ++ toL "project(PEHint ") ++ (cmakeNeedle a b c ++ y) := by
    simp [List.append_assoc]
  rw [heq]
  exact hasSub_append _ _ _

theorem update_cmake_already {a b c : Int} {content : List Char}
    (h : hasSub (cmakeNeedle a b c) content = true) :
    update_cmake_version a b c content = (content, .alreadyCorrect) := by
  simp [update_cmake_version, h]

theorem update_cmake_notfound {a b c : Int} {content : List Char}
    (h1 : hasSub (cmakeNeedle a b c) content = false)
    (h2 : hasMatch (cmakeRule a b c) content = false) :
    update_cmake_version a b c content = (content, .notFound) := by
  simp [update_cmake_version, h1, h2]

theorem update_cmake_updated {a b c : Int} {content : List Char}
    (h1 : hasSub (cmakeNeedle a b c) content = false)
    (h2 : hasMatch (cmakeRule a b c) content = true) :
    update_cmake_version a b c content
      = (subAll [cmakeRule a b c] content, .updated) := by
  simp [update_cmake_version, h1, h2]

theorem hasMatch_cmake_clause (a b c k1 k2 k3 : Nat) (u w : List Char)
    (hw : headND w = true) :
    hasMatch (cmakeRule (a : Int) (b : Int) (c : Int))
      (u ++ (replOf (cmakeRule (k1 : Int) (k2 : Int) (k3 : Int)) ++ w)) = true := by
  apply hasMatch_append
  rw [matchAt_repl (b := 'p') (r := cmakeRule (a : Int) (b : Int) (c : Int))
    (goodRule_cmake k1 k2 k3) rfl rfl (Or.inr hw)]
  rfl

/-! ### Driver control flow -/

theorem pyMain_parse_fail {v : List Char} {dry : Bool} {fs : FS}
    (h : pyParseVersion v = none) : pyMain v dry fs = ⟨1, fs⟩ := by
  simp [pyMain, h]

theorem pyMain_no_header {v : List Char} {dry : Bool} {fs : FS} {t : Int × Int × Int}
    (hv : pyParseVersion v = some t) (hh : fs.versionH = none) :
    pyMain v dry fs = ⟨1, fs⟩ := by
  obtain ⟨ma, mi, pa⟩ := t
  simp [pyMain, hv, hh]

theorem pyMain_dry {v : List Char} {fs : FS} {t : Int × Int × Int} {hc : List Char}
    (hv : pyParseVersion v = some t) (hh : fs.versionH = some hc) :
    pyMain v true fs = ⟨0, fs⟩ := by
  obtain ⟨ma, mi, pa⟩ := t
  simp [pyMain, hv, hh]

theorem pyMain_run {v : List Char} {ma mi pa : Int} {hc cc : List Char}
    (hv : pyParseVersion v = some (ma, mi, pa)) :
    pyMain v false ⟨some hc, some cc⟩
      = ⟨0, ⟨some (headerTransform ma mi pa hc),
          some (update_cmake_version ma mi pa cc).1⟩⟩ := by
  simp [pyMain, hv]

/-! ### Failure sides of the version parser -/

theorem pyParseVersion_none_of_len {s : List Char}
    (h : (splitDot s).length ≠ 3) : pyParseVersion s = none := by
  unfold pyParseVersion
  rcases hs : splitDot s with _ | ⟨x, _ | ⟨y, _ | ⟨z, _ | ⟨w, t⟩⟩⟩⟩
  · rfl
  · rfl
  · rfl
  · rw [hs] at h
    simp at h
  · rfl

theorem pyParseVersion_none_of_seg {s seg : List Char} (hmem : seg ∈ splitDot s)
    (hfail : pyInt seg = none) : pyParseVersion s = none := by
  unfold pyParseVersion
  rcases hs : splitDot s with _ | ⟨x, _ | ⟨y, _ | ⟨z, _ | ⟨w, t⟩⟩⟩⟩
  · rfl
  · rfl
  · rfl
  · rw [hs] at hmem
    simp only [List.mem_cons, List.not_mem_nil, or_false] at hmem
    rcases hmem with rfl | rfl | rfl
    · cases hy : pyInt y <;> cases hz : pyInt z <;> simp [hfail, hy, hz]
    · cases hx : pyInt x <;> cases hz : pyInt z <;> simp [hfail, hx, hz]
    · cases hx : pyInt x <;> cases hy : pyInt y <;> simp [hfail, hx, hy]
  · rfl

/-- Shared helper: with the equality short-circuit disabled, a document
consisting of barrier-free text, one clause instance and a match-free
tail is rewritten to carry the target triple, everything else verbatim. -/
theorem cmake_general_rewrite (a b c k1 k2 k3 : Nat) (u w : List Char)
    (hsub : hasSub (cmakeNeedle (a : Int) (b : Int) (c : Int))
      (u ++ (replOf (cmakeRule (k1 : Int) (k2 : Int) (k3 : Int)) ++ w)) = false)
    (hu : ∀ ch ∈ u, ch ≠ 'p') (hw : headND w = true)
    (hwm : hasMatch (cmakeRule (a : Int) (b : Int) (c : Int)) w = false) :
    update_cmake_version (a : Int) (b : Int) (c : Int)
        (u ++ (replOf (cmakeRule (k1 : Int) (k2 : Int) (k3 : Int)) ++ w))
      = (u ++ (replOf (cmakeRule (a : Int) (b : Int) (c : Int)) ++ w), .updated) := by
  rw [update_cmake_updated hsub (hasMatch_cmake_clause a b c k1 k2 k3 u w hw)]
  rw [subAll_sandwich (b := 'p') (goodRule_cmake a b c) (goodRule_cmake k1 k2 k3)
    rfl rfl hu (Or.inr hw)]
  rw [subAll_no_match hwm]

/-! ### The claims -/

/-- Claim C1, counterexample: the claim says any version string with a
segment that is not a non-negative decimal integer is rejected, but the
script parses `"1.-2.3"` successfully (Python `int` accepts a sign), so
no `FormatError` is raised and the run proceeds with minor = -2. -/
theorem c1_counterexample :
    pyParseVersion (toL "1.-2.3") = some (1, -2, 3) := by decide

/-- Claim C1, amended: canonical `a.b.c` strings with non-negative
decimal integers parse to the triple `(a, b, c)`; parsing fails — and
then the process exits with status 1 touching no file — exactly when the
split on `.` does not have three segments or some segment is not
accepted by Python `int` (which also admits signs, surrounding
whitespace and underscore separators, so e.g. `"1.-2.3"` is accepted). -/
theorem c1_amended :
    (∀ a b c : Nat,
      pyParseVersion (natDigits a ++ '.' :: (natDigits b ++ '.' :: natDigits c))
        = some ((a : Int), (b : Int), (c : Int)))
    ∧ (∀ s : List Char, (splitDot s).length ≠ 3 → pyParseVersion s = none)
    ∧ (∀ s seg : List Char, seg ∈ splitDot s → pyInt seg = none →
        pyParseVersion s = none)
    ∧ (∀ (v : List Char) (dry : Bool) (fs : FS), pyParseVersion v = none →
        pyMain v dry fs = ⟨1, fs⟩) :=
  ⟨pyParseVersion_canonical,
   fun _ h => pyParseVersion_none_of_len h,
   fun _ _ hmem hfail => pyParseVersion_none_of_seg hmem hfail,
   fun _ _ _ h => pyMain_parse_fail h⟩

theorem c1_amended_witness :
    pyParseVersion (natDigits 1 ++ '.' :: (natDigits 2 ++ '.' :: natDigits 3))
        = some (1, 2, 3)
    ∧ pyParseVersion (toL "1.2") = none
    ∧ pyParseVersion (toL "1.x.3") = none
    ∧ pyMain (toL "x.y") false ⟨some [], some []⟩ = ⟨1, ⟨some [], some []⟩⟩ :=
  ⟨c1_amended.1 1 2 3,
   c1_amended.2.1 (toL "1.2") (by decide),
   c1_amended.2.2.1 (toL "1.x.3") (toL "x") (by decide) (by decide),
   c1_amended.2.2.2 (toL "x.y") false ⟨some [], some []⟩ (by decide)⟩

/-- Claim C2, counterexample: the "already matches" short-circuit tests
for the substring `VERSION x.y.z` anywhere in the document, not inside
the declared-version clause.  Here the clause is present and carries
0.3.1 ≠ 0.4.0, so the claim requires a rewrite, but the
`cmake_minimum_required` line makes the substring test fire and nothing
is written. -/
theorem c2_counterexample :
    update_cmake_version 0 4 0
        (toL "cmake_minimum_required(VERSION 0.4.0)\nproject(PEHint VERSION 0.3.1 LANGUAGES CXX)")
      = (toL "cmake_minimum_required(VERSION 0.4.0)\nproject(PEHint VERSION 0.3.1 LANGUAGES CXX)",
          .alreadyCorrect)
    ∧ hasMatch (cmakeRule 0 4 0)
        (toL "cmake_minimum_required(VERSION 0.4.0)\nproject(PEHint VERSION 0.3.1 LANGUAGES CXX)")
      = true := by decide

/-- Claim C2, amended: the updater performs no write and reports
already-matching whenever the document contains the substring
`VERSION a.b.c` anywhere — in particular when the clause itself carries
the target version; when that substring is absent and the clause is
present (with any version), it rewrites the numeric triple and writes
back. -/
theorem c2_amended (a b c : Nat) (content : List Char) :
    (hasSub (cmakeNeedle (a : Int) (b : Int) (c : Int)) content = true →
      update_cmake_version (a : Int) (b : Int) (c : Int) content
        = (content, .alreadyCorrect))
    ∧ (∀ x y : List Char,
        content = x ++ (replOf (cmakeRule (a : Int) (b : Int) (c : Int)) ++ y) →
        update_cmake_version (a : Int) (b : Int) (c : Int) content
          = (content, .alreadyCorrect))
    ∧ (∀ (k1 k2 k3 : Nat) (u w : List Char),
        content = u ++ (replOf (cmakeRule (k1 : Int) (k2 : Int) (k3 : Int)) ++ w) →
        hasSub (cmakeNeedle (a : Int) (b : Int) (c : Int)) content = false →
        (∀ ch ∈ u, ch ≠ 'p') → headND w = true →
        hasMatch (cmakeRule (a : Int) (b : Int) (c : Int)) w = false →
        update_cmake_version (a : Int) (b : Int) (c : Int) content
          = (u ++ (replOf (cmakeRule (a : Int) (b : Int) (c : Int)) ++ w), .updated)) := by
  refine ⟨fun h => update_cmake_already h, fun x y heq => ?_, ?_⟩
  · subst heq
    exact update_cmake_already (hasSub_needle_of_clause _ _ _ x y)
  · intro k1 k2 k3 u w heq hsub hu hw hwm
    subst heq
    exact cmake_general_rewrite a b c k1 k2 k3 u w hsub hu hw hwm

theorem c2_amended_witness :
    update_cmake_version 1 2 3 (toL "project(PEHint VERSION 1.2.3 LANGUAGES CXX)")
      = (toL "project(PEHint VERSION 1.2.3 LANGUAGES CXX)", .alreadyCorrect)
    ∧ update_cmake_version 0 4 0 (toL "project(PEHint VERSION 0.3.1)")
      = (toL "project(PEHint VERSION 0.4.0)", .updated) := by
  constructor
  · exact (c2_amended 1 2 3 _).1 (by decide)
  · have h := (c2_amended 0 4 0 (toL "project(PEHint VERSION 0.3.1)")).2.2
      0 3 1 [] (toL ")") (by decide) (by decide) (by decide) (by decide) (by decide)
    exact h.trans (by decide)

/-- Claim C3, counterexample: with a valid version string and
`--dry-run` set but the header file absent, the process exits with
status 1, not 0 (the existence check precedes the dry-run branch). -/
theorem c3_counterexample :
    pyParseVersion (toL "1.2.3") = some (1, 2, 3)
    ∧ pyMain (toL "1.2.3") true ⟨none, none⟩ = ⟨1, ⟨none, none⟩⟩ := by decide

/-- Claim C3, amended: for every valid version string under `--dry-run`
no file content is modified, and the exit status is 0 provided the
header file exists (when it is missing the run exits 1, as the
missing-header rule dictates). -/
theorem c3_amended (v : List Char) (t : Int × Int × Int) (fs : FS)
    (hv : pyParseVersion v = some t) :
    (pyMain v true fs).fs = fs
    ∧ (fs.versionH ≠ none → pyMain v true fs = ⟨0, fs⟩) := by
  cases hh : fs.versionH with
  | none =>
    rw [pyMain_no_header hv hh]
    exact ⟨rfl, fun hne => absurd rfl hne⟩
  | some hc =>
    rw [pyMain_dry hv hh]
    exact ⟨rfl, fun _ => rfl⟩

theorem c3_amended_witness :
    (pyMain (toL "0.4.2") true ⟨some [], some []⟩).fs = ⟨some [], some []⟩
    ∧ pyMain (toL "0.4.2") true ⟨some [], some []⟩ = ⟨0, ⟨some [], some []⟩⟩ :=
  ⟨(c3_amended (toL "0.4.2") (0, 4, 2) ⟨some [], some []⟩ (by decide)).1,
   (c3_amended (toL "0.4.2") (0, 4, 2) ⟨some [], some []⟩ (by decide)).2 (by decide)⟩

/-- Claim C4: the header text transformation is idempotent — applying
the five substitutions twice with the same non-negative triple yields
the same document as applying them once. -/
theorem c4_header_idempotent (a b c : Nat) (s : List Char) :
    headerTransform (a : Int) (b : Int) (c : Int)
        (headerTransform (a : Int) (b : Int) (c : Int) s)
      = headerTransform (a : Int) (b : Int) (c : Int) s := by
  rw [headerTransform_subAll a b c s]
  unfold headerTransform
  rw [hdr_fix a b c (majorRule (a : Int)) (by simp [hdrRules]),
    hdr_fix a b c (minorRule (b : Int)) (by simp [hdrRules]),
    hdr_fix a b c (patchRule (c : Int)) (by simp [hdrRules]),
    hdr_fix a b c (strRule (a : Int) (b : Int) (c : Int)) (by simp [hdrRules]),
    hdr_fix a b c (strFullRule (a : Int) (b : Int) (c : Int)) (by simp [hdrRules])]

/-- Claim C5: the documented concrete substitution, and in general when
the clause pattern matches (and the equality short-circuit does not
fire) only the numeric triple is replaced; all surrounding text is
preserved verbatim. -/
theorem c5_cmake_substitution :
    update_cmake_version 0 4 0 (toL "project(PEHint VERSION 0.3.1 LANGUAGES CXX)")
      = (toL "project(PEHint VERSION 0.4.0 LANGUAGES CXX)", .updated)
    ∧ (∀ (a b c k1 k2 k3 : Nat) (u w : List Char),
        hasSub (cmakeNeedle (a : Int) (b : Int) (c : Int))
          (u ++ (replOf (cmakeRule (k1 : Int) (k2 : Int) (k3 : Int)) ++ w)) = false →
        (∀ ch ∈ u, ch ≠ 'p') → headND w = true →
        hasMatch (cmakeRule (a : Int) (b : Int) (c : Int)) w = false →
        update_cmake_version (a : Int) (b : Int) (c : Int)
            (u ++ (replOf (cmakeRule (k1 : Int) (k2 : Int) (k3 : Int)) ++ w))
          = (u ++ (replOf (cmakeRule (a : Int) (b : Int) (c : Int)) ++ w), .updated)) := by
  constructor
  · decide
  · intro a b c k1 k2 k3 u w hsub hu hw hwm
    exact cmake_general_rewrite a b c k1 k2 k3 u w hsub hu hw hwm

theorem c5_cmake_substitution_witness :
    update_cmake_version 1 0 0 (toL "project(PEHint VERSION 9.9.9 CXX)")
      = (toL "project(PEHint VERSION 1.0.0 CXX)", .updated) := by
  have h := c5_cmake_substitution.2 1 0 0 9 9 9 [] (toL " CXX)")
    (by decide) (by decide) (by decide) (by decide)
  exact h.trans (by decide)

/-- Claim C6: a header document containing none of the five target
patterns passes through the header update byte-identical, with no
error. -/
theorem c6_noop_safety (a b c : Nat) (s : List Char)
    (h1 : hasMatch (majorRule (a : Int)) s = false)
    (h2 : hasMatch (minorRule (b : Int)) s = false)
    (h3 : hasMatch (patchRule (c : Int)) s = false)
    (h4 : hasMatch (strRule (a : Int) (b : Int) (c : Int)) s = false)
    (h5 : hasMatch (strFullRule (a : Int) (b : Int) (c : Int)) s = false) :
    headerTransform (a : Int) (b : Int) (c : Int) s = s := by
  unfold headerTransform
  rw [subAll_no_match h1, subAll_no_match h2, subAll_no_match h3,
    subAll_no_match h4, subAll_no_match h5]

theorem c6_noop_safety_witness :
    headerTransform 1 2 3 (toL "no version macros here") = toL "no version macros here" :=
  c6_noop_safety 1 2 3 _ (by decide) (by decide) (by decide) (by decide) (by decide)

/-- Claim C7: when the clause pattern is not found (and the target
substring is absent), the cmake updater raises no error, reports
not-found, leaves the document untouched, and the whole run still exits
with status 0 leaving the cmake file as it was. -/
theorem c7_pattern_absent (a b c : Int) (v hc cc : List Char)
    (hsub : hasSub (cmakeNeedle a b c) cc = false)
    (hmatch : hasMatch (cmakeRule a b c) cc = false)
    (hv : pyParseVersion v = some (a, b, c)) :
    update_cmake_version a b c cc = (cc, .notFound)
    ∧ (pyMain v false ⟨some hc, some cc⟩).exitCode = 0
    ∧ (pyMain v false ⟨some hc, some cc⟩).fs.cmake = some cc := by
  have hu := update_cmake_notfound hsub hmatch
  refine ⟨hu, ?_, ?_⟩
  · rw [pyMain_run hv]
  · rw [pyMain_run hv, hu]

theorem c7_pattern_absent_witness :
    update_cmake_version 1 2 3 (toL "add_subdirectory(src)") = (toL "add_subdirectory(src)", .notFound)
    ∧ (pyMain (toL "1.2.3") false ⟨some [], some (toL "add_subdirectory(src)")⟩).exitCode = 0
    ∧ (pyMain (toL "1.2.3") false ⟨some [], some (toL "add_subdirectory(src)")⟩).fs.cmake
        = some (toL "add_subdirectory(src)") :=
  c7_pattern_absent 1 2 3 (toL "1.2.3") [] (toL "add_subdirectory(src)")
    (by decide) (by decide) (by decide)

/-- Claim C8: with a valid version string but no header file at the
expected path, the run exits with status 1 and writes nothing (the file
system is returned unchanged). -/
theorem c8_missing_header (v : List Char) (t : Int × Int × Int) (dry : Bool) (fs : FS)
    (hv : pyParseVersion v = some t) (hh : fs.versionH = none) :
    pyMain v dry fs = ⟨1, fs⟩ :=
  pyMain_no_header hv hh

theorem c8_missing_header_witness :
    pyMain (toL "0.4.2") false ⟨none, some []⟩ = ⟨1, ⟨none, some []⟩⟩ :=
  c8_missing_header (toL "0.4.2") (0, 4, 2) false ⟨none, some []⟩ (by decide) rfl

/-- Claim C9: the five header substitutions are order-insensitive —
folding them over the document in any order yields the document produced
by the implementation's fixed order. -/
theorem c9_order_insensitive (a b c : Nat) (ord : List Rule)
    (hperm : ord.Perm (hdrRules (a : Int) (b : Int) (c : Int))) (s : List Char) :
    applyRules ord s = headerTransform (a : Int) (b : Int) (c : Int) s := by
  rw [applyRules_subAll a b c ord (fun q hq => hperm.subset hq) s,
    headerTransform_subAll a b c s]
  apply subAll_perm ((List.reverse_perm ord).trans hperm)
  intro q hq p hp hne
  exact divs_hdr a b c q (hperm.subset (List.mem_reverse.1 hq))
    p (hperm.subset (List.mem_reverse.1 hp)) hne

theorem c9_order_insensitive_witness :
    applyRules [strRule 1 2 3, strFullRule 1 2 3, patchRule 3, minorRule 2, majorRule 1]
        (toL "#define PEHINT_VERSION_MAJOR 9\n#define PEHINT_VERSION_STRING \"9.9.9\"\n")
      = headerTransform 1 2 3
        (toL "#define PEHINT_VERSION_MAJOR 9\n#define PEHINT_VERSION_STRING \"9.9.9\"\n") :=
  c9_order_insensitive 1 2 3
    [strRule 1 2 3, strFullRule 1 2 3, patchRule 3, minorRule 2, majorRule 1]
    (List.Perm.swap _ _ _) _

/-- Claim C10 (implicit): each substitution rewrites every occurrence of
its pattern, not only the first — both for a header macro pattern
occurring twice and for a document with two `project(PEHint VERSION`
clauses. -/
theorem c10_all_occurrences :
    (∀ (n k m : Nat) (u v w : List Char),
      (∀ ch ∈ u, ch ≠ '#') → (∀ ch ∈ v, ch ≠ '#') →
      headND (v ++ (replOf (majorRule (m : Int)) ++ w)) = true → headND w = true →
      hasMatch (majorRule (n : Int)) w = false →
      subAll [majorRule (n : Int)]
          (u ++ (replOf (majorRule (k : Int)) ++ (v ++ (replOf (majorRule (m : Int)) ++ w))))
        = u ++ (replOf (majorRule (n : Int)) ++ (v ++ (replOf (majorRule (n : Int)) ++ w))))
    ∧ (∀ (a b c k1 k2 k3 m1 m2 m3 : Nat) (u v w : List Char),
      (∀ ch ∈ u, ch ≠ 'p') → (∀ ch ∈ v, ch ≠ 'p') →
      headND (v ++ (replOf (cmakeRule (m1 : Int) (m2 : Int) (m3 : Int)) ++ w)) = true →
      headND w = true →
      hasMatch (cmakeRule (a : Int) (b : Int) (c : Int)) w = false →
      hasSub (cmakeNeedle (a : Int) (b : Int) (c : Int))
        (u ++ (replOf (cmakeRule (k1 : Int) (k2 : Int) (k3 : Int))
          ++ (v ++ (replOf (cmakeRule (m1 : Int) (m2 : Int) (m3 : Int)) ++ w)))) = false →
      update_cmake_version (a : Int) (b : Int) (c : Int)
          (u ++ (replOf (cmakeRule (k1 : Int) (k2 : Int) (k3 : Int))
            ++ (v ++ (replOf (cmakeRule (m1 : Int) (m2 : Int) (m3 : Int)) ++ w))))
        = (u ++ (replOf (cmakeRule (a : Int) (b : Int) (c : Int))
            ++ (v ++ (replOf (cmakeRule (a : Int) (b : Int) (c : Int)) ++ w))), .updated)) := by
  constructor
  · intro n k m u v w hu hv hvh hw hwm
    rw [subAll_sandwich (b := '#') (goodRule_major n) (goodRule_major k) rfl rfl hu
      (Or.inr hvh)]
    rw [subAll_sandwich (b := '#') (goodRule_major n) (goodRule_major m) rfl rfl hv
      (Or.inr hw)]
    rw [subAll_no_match hwm]
  · intro a b c k1 k2 k3 m1 m2 m3 u v w hu hv hvh hw hwm hsub
    rw [update_cmake_updated hsub
      (hasMatch_cmake_clause a b c k1 k2 k3 u
        (v ++ (replOf (cmakeRule (m1 : Int) (m2 : Int) (m3 : Int)) ++ w)) hvh)]
    rw [subAll_sandwich (b := 'p') (goodRule_cmake a b c) (goodRule_cmake k1 k2 k3)
      rfl rfl hu (Or.inr hvh)]
    rw [subAll_sandwich (b := 'p') (goodRule_cmake a b c) (goodRule_cmake m1 m2 m3)
      rfl rfl hv (Or.inr hw)]
    rw [subAll_no_match hwm]

theorem c10_all_occurrences_witness :
    subAll [majorRule 7]
        (toL "#define PEHINT_VERSION_MAJOR 1\nx\n#define PEHINT_VERSION_MAJOR 2\n")
      = toL "#define PEHINT_VERSION_MAJOR 7\nx\n#define PEHINT_VERSION_MAJOR 7\n"
    ∧ update_cmake_version 7 8 9
        (toL "project(PEHint VERSION 1.2.3\nproject(PEHint VERSION 4.5.6\n")
      = (toL "project(PEHint VERSION 7.8.9\nproject(PEHint VERSION 7.8.9\n", .updated) := by
  constructor
  · have h := c10_all_occurrences.1 7 1 2 [] (toL "\nx\n") (toL "\n")
      (by decide) (by decide) (by decide) (by decide) (by decide)
    exact h.trans (by decide)
  · have h := c10_all_occurrences.2 7 8 9 1 2 3 4 5 6 [] (toL "\n") (toL "\n")
      (by decide) (by decide) (by decide) (by decide) (by decide) (by decide)
    exact h.trans (by decide)
